import Mathlib

/-!
Shallow embedding of `src/id3_variants_training/local_API.py` from the
CanDIG ID3_Sickkids_Project repository, together with proofs about the
recursive partition engine it implements.

The mutable `LOCAL_API` object is modelled as an immutable record `API`
holding the five per-individual/per-variant arrays.  Python dictionaries
are modelled as association lists (`List (String × _)`) preserving
insertion order; Python's `list.index` (which raises `ValueError`),
out-of-range list subscripts (`IndexError`) and missing dictionary keys
(`KeyError`) are modelled with `Except String`.  Machine integers are
`Nat`/`Int`; the genotype bits are `Nat`s `0`/`1`.
-/

namespace ID3

/-- State of the `LOCAL_API` object after `__init__`: the genotype matrix
(`variant_list`, one row of bits per individual), the aligned individual
ids and population labels, the variant name catalogue and the sorted set
of distinct population labels (`ancestry_list`). -/
structure API where
  variant_list : List (List Nat)
  indiv_list : List String
  popu_list : List String
  variant_name_list : List String
  ancestry_list : List String
deriving DecidableEq

/-- A split path: the list of variant names split upon so far, paired
with the list of directions (1 = with variant, 0 = without). -/
abbrev SplitPath := List String × List Nat

/-- A Python dictionary from population label to count, as an ordered
association list. -/
abbrev Counts := List (String × Nat)

/-- Python's `list.index` restricted to the index search: `some i` is the
first index holding `x`, `none` when `x` is absent. -/
def pyIndexNat : List String → String → Option Nat
  | [], _ => none
  | y :: ys, x => if y = x then some 0 else (pyIndexNat ys x).map (· + 1)

/-- Python's `list.index`, raising `ValueError` (the spec's
`UnknownVariant` condition) when the element is absent. -/
def pyIndex (l : List String) (x : String) : Except String Nat :=
  match pyIndexNat l x with
  | some i => .ok i
  | none => .error "UnknownVariant"

/-- Inner loop of `find_ignore_rows` for one `(variant, direction)`
constraint: walk every row (with its index `i`), and append to `acc` any
index not yet present whose value at column `varIdx` differs from the
required direction.  Reading past the end of a row is Python's
`IndexError`. -/
def ignoreStep (varIdx dir : Nat) : List (List Nat) → Nat → List Nat → Except String (List Nat)
  | [], _, acc => .ok acc
  | r :: rest, i, acc =>
    if i ∈ acc then ignoreStep varIdx dir rest (i + 1) acc
    else
      match r.get? varIdx with
      | none => .error "IndexError"
      | some v =>
        if v ≠ dir then ignoreStep varIdx dir rest (i + 1) (acc ++ [i])
        else ignoreStep varIdx dir rest (i + 1) acc

/-- Outer loop of `find_ignore_rows`: fold the constraint pairs, looking
each variant name up (Python `list.index`) and then scanning all rows. -/
def findIgnoreGo (api : API) : List (String × Nat) → List Nat → Except String (List Nat)
  | [], acc => .ok acc
  | (v, d) :: rest, acc =>
    match pyIndex api.variant_name_list v with
    | .error e => .error e
    | .ok vi =>
      match ignoreStep vi d api.variant_list 0 acc with
      | .error e => .error e
      | .ok acc2 => findIgnoreGo api rest acc2

/-- `LOCAL_API.find_ignore_rows`: indices of matrix rows inconsistent
with at least one constraint of the split path.  `zip` mirrors Python's
`zip(split_path[0], split_path[1])`. -/
def find_ignore_rows (api : API) (sp : SplitPath) : Except String (List Nat) :=
  findIgnoreGo api (sp.1.zip sp.2) []

/-- `LOCAL_API.create_split_path`: the two extensions of a split path by
a new variant, first with direction 1 (with variant), then 0 (without). -/
def create_split_path (sp : SplitPath) (new_variant_name : String) : SplitPath × SplitPath :=
  ((sp.1 ++ [new_variant_name], sp.2 ++ [1]), (sp.1 ++ [new_variant_name], sp.2 ++ [0]))

/-- Python `dict.fromkeys(l, 0)`. -/
def fromKeys (l : List String) : Counts := l.map (fun a => (a, 0))

/-- Python `d[k] += 1`: increment the value at the first occurrence of
`k`, raising `KeyError` when `k` has no entry. -/
def dictIncr : Counts → String → Except String Counts
  | [], _ => .error "KeyError"
  | (k, v) :: rest, x =>
    if k = x then .ok ((k, v + 1) :: rest)
    else
      match dictIncr rest x with
      | .error e => .error e
      | .ok rest2 => .ok ((k, v) :: rest2)

/-- Python truthiness of the optional `split_var` argument: `None` and
the empty string are falsy. -/
def pyTruthy : Option String → Bool
  | none => false
  | some s => s ≠ ""

/-- Row loop of `split_subset`: for each row not ignored, read its
population label (`popu_list[idx]`), and when `split_var` is truthy look
the candidate up (inside the loop, as the source does) and increment the
with-variant or without-variant dictionary according to the row's bit at
the candidate's column. -/
def splitRows (api : API) (ign : List Nat) (sv : Option String) :
    List (List Nat) → Nat → Counts → Counts → Except String (Counts × Counts)
  | [], _, w, wo => .ok (w, wo)
  | r :: rest, i, w, wo =>
    if i ∈ ign then splitRows api ign sv rest (i + 1) w wo
    else
      match api.popu_list.get? i with
      | none => .error "IndexError"
      | some popu =>
        if pyTruthy sv then
          match pyIndex api.variant_name_list (sv.getD "") with
          | .error e => .error e
          | .ok fvi =>
            match r.get? fvi with
            | none => .error "IndexError"
            | some v =>
              if v = 1 then
                match dictIncr w popu with
                | .error e => .error e
                | .ok w2 => splitRows api ign sv rest (i + 1) w2 wo
              else
                match dictIncr wo popu with
                | .error e => .error e
                | .ok wo2 => splitRows api ign sv rest (i + 1) w wo2
        else splitRows api ign sv rest (i + 1) w wo

/-- `LOCAL_API.split_subset`: two population-count dictionaries (with /
without the candidate variant) over the rows that survive the split-path
filter. -/
def split_subset (api : API) (sp : SplitPath) (split_var : Option String) :
    Except String (Counts × Counts) :=
  match find_ignore_rows api sp with
  | .error e => .error e
  | .ok ign =>
    splitRows api ign split_var api.variant_list 0
      (fromKeys api.ancestry_list) (fromKeys api.ancestry_list)

/-- Inner loop of `find_next_variant_counts` for one row: walk the row's
bits positionally against the per-variant dictionaries; each bit equal to
1 increments the population entry of the dictionary at the same position
(`w_variant_list[idx2][popu] += 1`). -/
def bumpRow (popu : String) : List Nat → List Counts → Except String (List Counts)
  | [], ds => .ok ds
  | v :: vs, ds =>
    if v = 1 then
      match ds with
      | [] => .error "IndexError"
      | d :: drest =>
        match dictIncr d popu with
        | .error e => .error e
        | .ok d2 =>
          match bumpRow popu vs drest with
          | .error e => .error e
          | .ok drest2 => .ok (d2 :: drest2)
    else
      match ds with
      | [] => bumpRow popu vs []
      | d :: drest =>
        match bumpRow popu vs drest with
        | .error e => .error e
        | .ok drest2 => .ok (d :: drest2)

/-- Row loop of `find_next_variant_counts`. -/
def fnvGo (api : API) (ign : List Nat) :
    List (List Nat) → Nat → List Counts → Except String (List Counts)
  | [], _, ds => .ok ds
  | r :: rest, i, ds =>
    if i ∈ ign then fnvGo api ign rest (i + 1) ds
    else
      match api.popu_list.get? i with
      | none => .error "IndexError"
      | some popu =>
        match bumpRow popu r ds with
        | .error e => .error e
        | .ok ds2 => fnvGo api ign rest (i + 1) ds2

/-- `LOCAL_API.find_next_variant_counts`: one population-count dictionary
per variant (in `variant_name_list` order), counting eligible rows that
carry that variant. -/
def find_next_variant_counts (api : API) (sp : SplitPath) : Except String (List Counts) :=
  match find_ignore_rows api sp with
  | .error e => .error e
  | .ok ign =>
    fnvGo api ign api.variant_list 0
      (api.variant_name_list.map (fun _ => fromKeys api.ancestry_list))

/-- Python `d[k] = d.get(k, 0) + 1`: increment the first occurrence of
`k`, appending a fresh entry `(k, 1)` at the end when `k` is absent. -/
def dictIncrD : Counts → String → Counts
  | [], x => [(x, 1)]
  | (k, v) :: rest, x =>
    if k = x then (k, v + 1) :: rest else (k, v) :: dictIncrD rest x

/-- `LOCAL_API.get_target_set`: population counts over all individuals,
starting from a zero dictionary keyed by `ancestry_list`. -/
def get_target_set (api : API) : Counts :=
  api.popu_list.foldl dictIncrD (fromKeys api.ancestry_list)

/-- Inner loop of `count_variants` over one row: each bit equal to 1
increments the entry keyed by the variant name at the same column
(`variant_name_list[idx]`, an `IndexError` when the row is longer than
the catalogue). -/
def cvRow (names : List String) : List Nat → Nat → Counts → Except String Counts
  | [], _, d => .ok d
  | v :: vs, i, d =>
    if v = 1 then
      match names.get? i with
      | none => .error "IndexError"
      | some nm => cvRow names vs (i + 1) (dictIncrD d nm)
    else cvRow names vs (i + 1) d

/-- Row loop of `count_variants`. -/
def cvGo (names : List String) : List (List Nat) → Counts → Except String Counts
  | [], d => .ok d
  | r :: rest, d =>
    match cvRow names r 0 d with
    | .error e => .error e
    | .ok d2 => cvGo names rest d2

/-- `LOCAL_API.count_variants`: per-variant carrier counts over the whole
matrix, starting from the empty dictionary. -/
def count_variants (api : API) : Except String Counts :=
  cvGo api.variant_name_list api.variant_list []

/-- One genotype call of a VCF record: the individual id (`call.sample`)
and the genotype string (`call['GT']`). -/
structure VCall where
  sample : String
  gt : String
deriving DecidableEq

/-- One VCF record as consumed by `create_variant_dict`: chromosome,
position and the per-individual calls. -/
structure Variant where
  chrom : String
  pos : Int
  samples : List VCall
deriving DecidableEq

/-- The variant name built by `create_variant_dict`:
`':'.join([str(CHROM), str(POS-1), str(POS)])`. -/
def variantName (v : Variant) : String :=
  String.intercalate ":" [v.chrom, toString (v.pos - 1), toString v.pos]

/-- The genotype classification of `create_variant_dict`: GT strings
`0/0`, `0|0` and `.` are recorded as 0 (reference), everything else as
1 (variant present). -/
def classifyGT (gt : String) : Nat :=
  if gt ∈ (["0/0", "0|0", "."] : List String) then 0 else 1

/-- Python `variant_dict[s] = variant_dict.get(s, []); variant_dict[s].append(b)`:
append `b` to the list at key `s`, creating the entry when absent. -/
def dictAppendBit : List (String × List Nat) → String → Nat → List (String × List Nat)
  | [], s, b => [(s, [b])]
  | (k, l) :: rest, s, b =>
    if k = s then (k, l ++ [b]) :: rest else (k, l) :: dictAppendBit rest s b

/-- Call loop of `create_variant_dict` for one VCF record. -/
def processCalls (calls : List VCall) (d : List (String × List Nat)) : List (String × List Nat) :=
  calls.foldl (fun d c => dictAppendBit d c.sample (classifyGT c.gt)) d

/-- `LOCAL_API.create_variant_dict`: the variant-name catalogue (one name
per record) and the per-individual genotype bit lists. -/
def create_variant_dict (variants : List Variant) :
    List String × List (String × List Nat) :=
  (variants.map variantName, variants.foldl (fun d v => processCalls v.samples d) [])

/-- First-match association-list lookup (Python `d[k]` / `k in d`). -/
def alookup {β : Type} (k : String) : List (String × β) → Option β
  | [] => none
  | (k2, v) :: rest => if k2 = k then some v else alookup k rest

/-- Python `d[k] = v` on a string-valued dictionary: overwrite the first
occurrence, appending at the end when absent. -/
def dictSetS : List (String × String) → String → String → List (String × String)
  | [], k, v => [(k, v)]
  | (k2, v2) :: rest, k, v =>
    if k2 = k then (k2, v) :: rest else (k2, v2) :: dictSetS rest k v

/-- State produced by `read_user_mappings`. -/
structure Mappings where
  ancestry_dict : List (String × String)
  indiv_list : List String
  popu_list : List String
  variant_list : List (List Nat)
  ancestry_list : List String
deriving DecidableEq

/-- Line loop of `read_user_mappings`: each data line contributes its
column 1 (individual id) and column 6 (population) to `ancestry_dict`,
and, when the id has genotype data, one aligned entry to the individual,
population and matrix arrays.  A line with too few columns is Python's
`IndexError` (the spec's `MalformedMapping`). -/
def rumGo (vd : List (String × List Nat)) :
    List (List String) → List (String × String) → List String → List String →
      List (List Nat) →
      Except String (List (String × String) × List String × List String × List (List Nat))
  | [], ad, il, pl, vl => .ok (ad, il, pl, vl)
  | line :: rest, ad, il, pl, vl =>
    match line.get? 1 with
    | none => .error "IndexError"
    | some indiv =>
      match line.get? 6 with
      | none => .error "IndexError"
      | some popu =>
        match alookup indiv vd with
        | some bits => rumGo vd rest (dictSetS ad indiv popu) (il ++ [indiv]) (pl ++ [popu]) (vl ++ [bits])
        | none => rumGo vd rest (dictSetS ad indiv popu) il pl vl

/-- `LOCAL_API.read_user_mappings` on the already-split data lines (the
header line is skipped by the caller): builds the aligned arrays and the
sorted set of distinct population labels
(`list(set(ancestry_dict.values())); .sort()`). -/
def read_user_mappings (vd : List (String × List Nat)) (lines : List (List String)) :
    Except String Mappings :=
  match rumGo vd lines [] [] [] [] with
  | .error e => .error e
  | .ok (ad, il, pl, vl) =>
    .ok { ancestry_dict := ad, indiv_list := il, popu_list := pl, variant_list := vl,
          ancestry_list := ((ad.map (·.2)).dedup).insertionSort (· ≤ ·) }

/-- Assemble an `API` state from the result of `read_user_mappings` and a
variant-name catalogue (as `__init__` does). -/
def mkAPI (m : Mappings) (names : List String) : API :=
  { variant_list := m.variant_list, indiv_list := m.indiv_list, popu_list := m.popu_list,
    variant_name_list := names, ancestry_list := m.ancestry_list }

/-- Well-formedness of an `API` state, as established by `__init__` and
the data model: rows are as long as the variant catalogue, the
per-individual arrays are aligned, every per-row population label occurs
in the ancestry universe, the catalogue and the universe are
duplicate-free, and variant names are non-empty. -/
def API.WF (api : API) : Prop :=
  (∀ r ∈ api.variant_list, r.length = api.variant_name_list.length) ∧
  api.popu_list.length = api.variant_list.length ∧
  (∀ p ∈ api.popu_list, p ∈ api.ancestry_list) ∧
  api.variant_name_list.Nodup ∧
  api.ancestry_list.Nodup ∧
  (∀ n ∈ api.variant_name_list, n ≠ "")

instance (api : API) : Decidable api.WF := by
  unfold API.WF; infer_instance

/-! ### Pure counting measures used to state the properties -/

/-- Number of rows, starting at index `i`, that are not ignored, whose
population label is `a`, and whose bit at column `col` matches `tgt`
(`tgt = true`: the bit is 1; `tgt = false`: it is not). -/
def rowCnt (popuL : List String) (ign : List Nat) (col : Nat) (tgt : Bool) (a : String) :
    List (List Nat) → Nat → Nat
  | [], _ => 0
  | r :: rest, i =>
    (if i ∉ ign ∧ popuL.getD i "" = a ∧ ((r.getD col 0 == 1) = tgt) then 1 else 0)
      + rowCnt popuL ign col tgt a rest (i + 1)

/-- Number of rows, starting at index `i`, that are not ignored and whose
population label is `a`. -/
def popuCntFrom (popuL : List String) (ign : List Nat) (a : String) :
    List (List Nat) → Nat → Nat
  | [], _ => 0
  | _ :: rest, i =>
    (if i ∉ ign ∧ popuL.getD i "" = a then 1 else 0) + popuCntFrom popuL ign a rest (i + 1)

/-- Number of rows, starting at index `i`, that are not ignored. -/
def eligCnt (ign : List Nat) : List (List Nat) → Nat → Nat
  | [], _ => 0
  | _ :: rest, i => (if i ∉ ign then 1 else 0) + eligCnt ign rest (i + 1)

/-- Sum of all values of a count dictionary. -/
def sumCounts (d : Counts) : Nat := (d.map (·.2)).sum

/-- Pointwise (per-population) sum of two count dictionaries with the
same key sequence. -/
def addCounts (d e : Counts) : Counts := d.zipWith (fun p q => (p.1, p.2 + q.2)) e

/-- Number of individuals whose row has a 1 in column `j`. -/
def colCount (api : API) (j : Nat) : Nat :=
  api.variant_list.countP (fun r => r.getD j 0 == 1)

/-- The classified genotype bits appended for individual `s`, in VCF
record order (one bit per call of `s`). -/
def sampleBits (s : String) : List Variant → List Nat
  | [] => []
  | v :: vs =>
    ((v.samples.filter (fun c => c.sample == s)).map (fun c => classifyGT c.gt)) ++ sampleBits s vs

/-- Number of bumps `count_variants` performs for key `n` in one row
whose first bit sits at catalogue position `i`. -/
def rowColCnt (names : List String) (n : String) : List Nat → Nat → Nat
  | [], _ => 0
  | v :: vs, i =>
    (if names.getD i "" = n ∧ v = 1 then 1 else 0) + rowColCnt names n vs (i + 1)

/-- Total number of bumps `count_variants` performs for key `n`. -/
def colTotal (names : List String) (rows : List (List Nat)) (n : String) : Nat :=
  (rows.map (fun r => rowColCnt names n r 0)).sum

/-- Value of a count dictionary at key `n`, with default 0. -/
def lookVal (n : String) (d : Counts) : Nat := (alookup n d).getD 0

/-- Value of a bit-list dictionary at key `s`, with default `[]`. -/
def lookValL (s : String) (d : List (String × List Nat)) : List Nat := (alookup s d).getD []

/-! ### Pure mirrors of the candidate-scanner loops -/

/-- Pure mirror of `bumpRow` on the value functions of the per-variant
dictionaries. -/
def bumpSpec (p : String) : List Nat → List (String → Nat) → List (String → Nat)
  | [], fs => fs
  | _ :: _, [] => []
  | v :: vs, f :: fs =>
    (if v = 1 then (fun a => if a = p then f a + 1 else f a) else f) :: bumpSpec p vs fs

/-- Pure mirror of the row loop of `find_next_variant_counts`. -/
def fnvSpec (popuL : List String) (ign : List Nat) :
    List (List Nat) → Nat → List (String → Nat) → List (String → Nat)
  | [], _, fs => fs
  | r :: rest, i, fs =>
    if i ∈ ign then fnvSpec popuL ign rest (i + 1) fs
    else fnvSpec popuL ign rest (i + 1) (bumpSpec (popuL.getD i "") r fs)

/-! ### Concrete states used by the witnesses and counterexamples -/

/-- The concrete scenario of spec §8: four individuals, two variants. -/
def apiW : API :=
  { variant_list := [[1, 0], [1, 1], [0, 0], [0, 1]],
    indiv_list := ["i1", "i2", "i3", "i4"],
    popu_list := ["A", "A", "B", "B"],
    variant_name_list := ["V1", "V2"],
    ancestry_list := ["A", "B"] }

/-- A one-row state whose single row is excluded by the split path
`(["a"], [0])`. -/
def apiC5 : API :=
  { variant_list := [[1]],
    indiv_list := ["i1"],
    popu_list := ["P"],
    variant_name_list := ["a"],
    ancestry_list := ["P"] }

/-- Genotype dictionary for the duplicate-id mapping scenario. -/
def vdC : List (String × List Nat) := [("id1", [0])]

/-- Two mapping lines assigning individual `id1` first population `A`,
then population `B`. -/
def linesC : List (List String) :=
  [["x", "id1", "c", "d", "e", "f", "A"], ["x", "id1", "c", "d", "e", "f", "B"]]

/-- Genotype dictionary for the single-line mapping scenario. -/
def vdW2 : List (String × List Nat) := [("id1", [1])]

/-- One mapping line assigning individual `id1` population `A`. -/
def linesW2 : List (List String) := [["x", "id1", "c", "d", "e", "f", "A"]]

/-- The state `read_user_mappings` builds from `vdW2` and `linesW2`. -/
def mW2 : Mappings :=
  { ancestry_dict := [("id1", "A")],
    indiv_list := ["id1"],
    popu_list := ["A"],
    variant_list := [[1]],
    ancestry_list := ["A"] }

/-- The state `read_user_mappings` builds from `vdC` and `linesC`. -/
def mC : Mappings :=
  { ancestry_dict := [("id1", "B")],
    indiv_list := ["id1", "id1"],
    popu_list := ["A", "B"],
    variant_list := [[0], [0]],
    ancestry_list := ["B"] }

/-! ## Basic lemmas about the Python-primitive models -/

theorem pyIndexNat_eq_none (l : List String) (x : String) (hx : x ∉ l) :
    pyIndexNat l x = none := by
  induction l with
  | nil => rfl
  | cons a rest ih =>
    simp only [List.mem_cons, not_or] at hx
    simp [pyIndexNat, Ne.symm hx.1, ih hx.2]

theorem pyIndexNat_isSome (l : List String) (x : String) (hx : x ∈ l) :
    ∃ i, pyIndexNat l x = some i := by
  induction l with
  | nil => simp at hx
  | cons a rest ih =>
    by_cases ha : a = x
    · exact ⟨0, by simp [pyIndexNat, ha]⟩
    · have hx2 : x ∈ rest := by
        rcases List.mem_cons.1 hx with h | h
        · exact absurd h.symm ha
        · exact h
      rcases ih hx2 with ⟨i, hi⟩
      exact ⟨i + 1, by simp [pyIndexNat, ha, hi]⟩

theorem pyIndexNat_lt (l : List String) (x : String) (i : Nat)
    (h : pyIndexNat l x = some i) : i < l.length := by
  induction l generalizing i with
  | nil => simp [pyIndexNat] at h
  | cons a rest ih =>
    by_cases ha : a = x
    · simp [pyIndexNat, ha] at h
      simp only [List.length_cons]
      omega
    · simp only [pyIndexNat, ha, if_false, Option.map_eq_some'] at h
      rcases h with ⟨j, hj, rfl⟩
      have := ih j hj
      simp only [List.length_cons]
      omega

theorem pyIndexNat_get (l : List String) (x : String) (i : Nat)
    (h : pyIndexNat l x = some i) : l.get? i = some x := by
  induction l generalizing i with
  | nil => simp [pyIndexNat] at h
  | cons a rest ih =>
    by_cases ha : a = x
    · simp [pyIndexNat, ha] at h
      simp [← h, ha]
    · simp only [pyIndexNat, ha, if_false, Option.map_eq_some'] at h
      rcases h with ⟨j, hj, rfl⟩
      simpa using ih j hj

theorem pyIndex_ok_of_some (l : List String) (x : String) (i : Nat)
    (h : pyIndexNat l x = some i) : pyIndex l x = .ok i := by
  simp [pyIndex, h]

theorem pyIndex_error_of_not_mem (l : List String) (x : String) (hx : x ∉ l) :
    pyIndex l x = .error "UnknownVariant" := by
  simp [pyIndex, pyIndexNat_eq_none l x hx]

theorem dictIncr_map_of_mem (l : List String) (hl : l.Nodup) (f : String → Nat)
    (p : String) (hp : p ∈ l) :
    dictIncr (l.map fun a => (a, f a)) p
      = .ok (l.map fun a => (a, if a = p then f a + 1 else f a)) := by
  induction l with
  | nil => simp at hp
  | cons a rest ih =>
    rcases List.nodup_cons.1 hl with ⟨ha, hrest⟩
    by_cases hap : a = p
    · subst hap
      have : rest.map (fun b => (b, if b = a then f b + 1 else f b)) = rest.map (fun b => (b, f b)) :=
        List.map_congr_left (fun b hb => by
          have : b ≠ a := fun hba => ha (hba ▸ hb)
          simp [this])
      simp [dictIncr, this]
    · have hp2 : p ∈ rest := by
        rcases List.mem_cons.1 hp with h | h
        · exact absurd h.symm hap
        · exact h
      simp [dictIncr, hap, ih hrest hp2]

theorem sum_map_add (l : List String) (f g : String → Nat) :
    (l.map fun a => f a + g a).sum = (l.map f).sum + (l.map g).sum := by
  induction l with
  | nil => rfl
  | cons a rest ih => simp [ih]; omega

theorem sum_map_ite_eq (l : List String) (hl : l.Nodup) (p : String) :
    (l.map fun a => if p = a then 1 else 0).sum = if p ∈ l then 1 else 0 := by
  induction l with
  | nil => rfl
  | cons a rest ih =>
    rcases List.nodup_cons.1 hl with ⟨ha, hrest⟩
    by_cases hap : p = a
    · subst hap
      have : rest.map (fun b => if p = b then 1 else 0) = rest.map (fun _ => 0) :=
        List.map_congr_left (fun b hb => by
          have : p ≠ b := fun hpb => ha (hpb ▸ hb)
          simp [this])
      simp [this, List.map_const]
    · simp [hap, ih hrest, List.mem_cons]

/-! ## Lemmas about the row filter -/

theorem ignoreStep_ok (varIdx dir : Nat) (rows : List (List Nat))
    (hrows : ∀ r ∈ rows, varIdx < r.length) :
    ∀ (i : Nat) (acc : List Nat), ∃ l, ignoreStep varIdx dir rows i acc = .ok l := by
  induction rows with
  | nil => exact fun i acc => ⟨acc, rfl⟩
  | cons r rest ih =>
    intro i acc
    have hr : varIdx < r.length := hrows r (by simp)
    have hrest : ∀ r2 ∈ rest, varIdx < r2.length := fun r2 h => hrows r2 (by simp [h])
    obtain ⟨v, hv⟩ : ∃ v, r.get? varIdx = some v := by
      rw [List.get?_eq_getElem?]
      exact ⟨r[varIdx], List.getElem?_eq_getElem hr⟩
    by_cases hi : i ∈ acc
    · have heq : ignoreStep varIdx dir (r :: rest) i acc = ignoreStep varIdx dir rest (i + 1) acc := by
        simp only [ignoreStep, hi, if_true]
      rw [heq]
      exact ih hrest (i + 1) acc
    · by_cases hvd : v = dir
      · have heq : ignoreStep varIdx dir (r :: rest) i acc = ignoreStep varIdx dir rest (i + 1) acc := by
          simp only [ignoreStep, hi, if_false]
          rw [hv]
          simp [hvd]
        rw [heq]
        exact ih hrest (i + 1) acc
      · have heq : ignoreStep varIdx dir (r :: rest) i acc
            = ignoreStep varIdx dir rest (i + 1) (acc ++ [i]) := by
          simp only [ignoreStep, hi, if_false]
          rw [hv]
          simp [hvd]
        rw [heq]
        exact ih hrest (i + 1) (acc ++ [i])

theorem ignoreStep_sub (varIdx dir : Nat) (rows : List (List Nat)) :
    ∀ (i : Nat) (acc l : List Nat), ignoreStep varIdx dir rows i acc = .ok l →
      ∃ extra, l = acc ++ extra ∧ ∀ j ∈ extra, i ≤ j ∧ j < i + rows.length ∧ j ∉ acc := by
  induction rows with
  | nil =>
    intro i acc l h
    simp only [ignoreStep] at h
    cases h
    exact ⟨[], by simp⟩
  | cons r rest ih =>
    intro i acc l h
    by_cases hi : i ∈ acc
    · simp only [ignoreStep, hi, if_true] at h
      rcases ih (i + 1) acc l h with ⟨extra, rfl, hextra⟩
      refine ⟨extra, rfl, fun j hj => ?_⟩
      rcases hextra j hj with ⟨h1, h2, h3⟩
      exact ⟨by omega, by simp only [List.length_cons]; omega, h3⟩
    · simp only [ignoreStep, hi, if_false] at h
      cases hv : r.get? varIdx with
      | none => rw [hv] at h; cases h
      | some v =>
        rw [hv] at h
        by_cases hvd : v = dir
        · simp only [hvd, ne_eq, not_true_eq_false, if_false, ite_self] at h
          have h2 : ignoreStep varIdx dir rest (i + 1) acc = .ok l := by
            simpa [hvd] using h
          rcases ih (i + 1) acc l h2 with ⟨extra, rfl, hextra⟩
          refine ⟨extra, rfl, fun j hj => ?_⟩
          rcases hextra j hj with ⟨h1, h2, h3⟩
          exact ⟨by omega, by simp only [List.length_cons]; omega, h3⟩
        · have h2 : ignoreStep varIdx dir rest (i + 1) (acc ++ [i]) = .ok l := by
            simpa [hvd] using h
          rcases ih (i + 1) (acc ++ [i]) l h2 with ⟨extra, rfl, hextra⟩
          refine ⟨i :: extra, by simp, fun j hj => ?_⟩
          rcases List.mem_cons.1 hj with rfl | hj2
          · exact ⟨le_refl j, by simp only [List.length_cons]; omega, hi⟩
          · rcases hextra j hj2 with ⟨h1, h2, h3⟩
            simp only [List.mem_append, List.mem_singleton, not_or] at h3
            exact ⟨by omega, by simp only [List.length_cons]; omega, h3.1⟩

theorem ignoreStep_nodup (varIdx dir : Nat) (rows : List (List Nat)) :
    ∀ (i : Nat) (acc l : List Nat), ignoreStep varIdx dir rows i acc = .ok l →
      acc.Nodup → l.Nodup := by
  induction rows with
  | nil =>
    intro i acc l h hacc
    simp only [ignoreStep] at h
    cases h
    exact hacc
  | cons r rest ih =>
    intro i acc l h hacc
    by_cases hi : i ∈ acc
    · simp only [ignoreStep, hi, if_true] at h
      exact ih (i + 1) acc l h hacc
    · simp only [ignoreStep, hi, if_false] at h
      cases hv : r.get? varIdx with
      | none => rw [hv] at h; cases h
      | some v =>
        rw [hv] at h
        by_cases hvd : v = dir
        · exact ih (i + 1) acc l (by simpa [hvd] using h) hacc
        · refine ih (i + 1) (acc ++ [i]) l (by simpa [hvd] using h) ?_
          simp [List.nodup_append, hacc, hi]

theorem findIgnoreGo_ok (api : API) (pairs : List (String × Nat))
    (hnames : ∀ p ∈ pairs, p.1 ∈ api.variant_name_list)
    (hrows : ∀ r ∈ api.variant_list, r.length = api.variant_name_list.length) :
    ∀ acc, ∃ l, findIgnoreGo api pairs acc = .ok l := by
  induction pairs with
  | nil => exact fun acc => ⟨acc, rfl⟩
  | cons p rest ih =>
    intro acc
    obtain ⟨v, d⟩ := p
    obtain ⟨vi, hvi⟩ := pyIndexNat_isSome _ v (hnames (v, d) (by simp))
    have hlt := pyIndexNat_lt _ v vi hvi
    rcases ignoreStep_ok vi d api.variant_list (fun r hr => (hrows r hr) ▸ hlt) 0 acc with ⟨acc2, hacc2⟩
    rcases ih (fun q hq => hnames q (by simp [hq])) acc2 with ⟨l, hl⟩
    exact ⟨l, by simp [findIgnoreGo, pyIndex, hvi, hacc2, hl]⟩

theorem findIgnoreGo_mono (api : API) (pairs : List (String × Nat)) :
    ∀ acc l, findIgnoreGo api pairs acc = .ok l → ∀ j ∈ acc, j ∈ l := by
  induction pairs with
  | nil =>
    intro acc l h
    simp only [findIgnoreGo] at h
    cases h
    exact fun j hj => hj
  | cons p rest ih =>
    intro acc l h
    obtain ⟨v, d⟩ := p
    simp only [findIgnoreGo] at h
    cases hpi : pyIndex api.variant_name_list v with
    | error e => simp [hpi] at h
    | ok vi =>
      simp only [hpi] at h
      cases hst : ignoreStep vi d api.variant_list 0 acc with
      | error e => simp [hst] at h
      | ok acc2 =>
        simp only [hst] at h
        intro j hj
        rcases ignoreStep_sub vi d api.variant_list 0 acc acc2 hst with ⟨extra, rfl, _⟩
        exact ih (acc ++ extra) l h j (by simp [hj])

theorem findIgnoreGo_nodup_bound (api : API) (pairs : List (String × Nat)) :
    ∀ acc l, findIgnoreGo api pairs acc = .ok l → acc.Nodup →
      (∀ j ∈ acc, j < api.variant_list.length) →
      l.Nodup ∧ ∀ j ∈ l, j < api.variant_list.length := by
  induction pairs with
  | nil =>
    intro acc l h hacc hbd
    simp only [findIgnoreGo] at h
    cases h
    exact ⟨hacc, hbd⟩
  | cons p rest ih =>
    intro acc l h hacc hbd
    obtain ⟨v, d⟩ := p
    simp only [findIgnoreGo] at h
    cases hpi : pyIndex api.variant_name_list v with
    | error e => simp [hpi] at h
    | ok vi =>
      simp only [hpi] at h
      cases hst : ignoreStep vi d api.variant_list 0 acc with
      | error e => simp [hst] at h
      | ok acc2 =>
        simp only [hst] at h
        have hnd2 := ignoreStep_nodup vi d api.variant_list 0 acc acc2 hst hacc
        have hbd2 : ∀ j ∈ acc2, j < api.variant_list.length := by
          rcases ignoreStep_sub vi d api.variant_list 0 acc acc2 hst with ⟨extra, rfl, hextra⟩
          intro j hj
          rcases List.mem_append.1 hj with hj2 | hj2
          · exact hbd j hj2
          · rcases hextra j hj2 with ⟨_, h2, _⟩
            omega
        exact ih acc2 l h hnd2 hbd2

theorem findIgnoreGo_append (api : API) (p1 p2 : List (String × Nat)) :
    ∀ acc, findIgnoreGo api (p1 ++ p2) acc =
      match findIgnoreGo api p1 acc with
      | .error e => .error e
      | .ok acc2 => findIgnoreGo api p2 acc2 := by
  induction p1 with
  | nil => intro acc; simp [findIgnoreGo]
  | cons p rest ih =>
    intro acc
    obtain ⟨v, d⟩ := p
    simp only [List.cons_append, findIgnoreGo]
    cases hpi : pyIndex api.variant_name_list v with
    | error e => simp [hpi]
    | ok vi =>
      simp only [hpi]
      cases hst : ignoreStep vi d api.variant_list 0 acc with
      | error e => simp [hst]
      | ok acc2 =>
        simp only [hst]
        exact ih acc2

theorem findIgnoreGo_err_unknown (api : API) (pairs : List (String × Nat))
    (hrows : ∀ r ∈ api.variant_list, r.length = api.variant_name_list.length)
    (v : String) (d : Nat) (hvd : (v, d) ∈ pairs) (hv : v ∉ api.variant_name_list) :
    ∀ acc, findIgnoreGo api pairs acc = .error "UnknownVariant" := by
  induction pairs with
  | nil => simp at hvd
  | cons p rest ih =>
    intro acc
    obtain ⟨v0, d0⟩ := p
    by_cases h0 : v0 ∈ api.variant_name_list
    · obtain ⟨vi, hvi⟩ := pyIndexNat_isSome _ v0 h0
      have hlt := pyIndexNat_lt _ v0 vi hvi
      rcases ignoreStep_ok vi d0 api.variant_list (fun r hr => (hrows r hr) ▸ hlt) 0 acc with ⟨acc2, hacc2⟩
      have hmem : (v, d) ∈ rest := by
        rcases List.mem_cons.1 hvd with heq | h
        · cases heq
          exact absurd h0 hv
        · exact h
      simp [findIgnoreGo, pyIndex, hvi, hacc2, ih hmem acc2]
    · simp [findIgnoreGo, pyIndex_error_of_not_mem _ v0 h0]

/-! ## Lemmas about the conditioned split -/

theorem getD_of_get? {α : Type} (l : List α) (i : Nat) (x d : α) (h : l.get? i = some x) :
    l.getD i d = x := by
  simp [List.getD_eq_getElem?_getD, ← List.get?_eq_getElem?, h]

theorem splitRows_falsy (api : API) (ign : List Nat) (sv : Option String)
    (hsv : pyTruthy sv = false) :
    ∀ (rows : List (List Nat)) (i : Nat) (w wo : Counts),
      (∀ k, k < rows.length → (i + k) ∉ ign → (api.popu_list.get? (i + k)).isSome) →
      splitRows api ign sv rows i w wo = .ok (w, wo) := by
  intro rows
  induction rows with
  | nil => intro i w wo _; rfl
  | cons r rest ih =>
    intro i w wo hpop
    have hshift : ∀ k, k < rest.length → (i + 1 + k) ∉ ign →
        (api.popu_list.get? (i + 1 + k)).isSome := by
      intro k hk hkn
      have e1 : i + 1 + k = i + (k + 1) := by omega
      rw [e1] at hkn ⊢
      exact hpop (k + 1) (by simp only [List.length_cons]; omega) hkn
    by_cases hi : i ∈ ign
    · have heq : splitRows api ign sv (r :: rest) i w wo
          = splitRows api ign sv rest (i + 1) w wo := by
        simp only [splitRows, hi, if_true]
      rw [heq]
      exact ih (i + 1) w wo hshift
    · have hs := hpop 0 (by simp) (by simpa using hi)
      obtain ⟨p, hp⟩ := Option.isSome_iff_exists.1 hs
      have hp2 : api.popu_list.get? i = some p := by simpa using hp
      have heq : splitRows api ign sv (r :: rest) i w wo
          = splitRows api ign sv rest (i + 1) w wo := by
        simp only [splitRows, hi, if_false]
        rw [hp2]
        simp [hsv]
      rw [heq]
      exact ih (i + 1) w wo hshift

theorem splitRows_empty_none (api : API) (ign : List Nat) :
    ∀ (rows : List (List Nat)) (i : Nat) (w wo : Counts),
      splitRows api ign (some "") rows i w wo = splitRows api ign none rows i w wo := by
  intro rows
  induction rows with
  | nil => intro i w wo; rfl
  | cons r rest ih =>
    intro i w wo
    simp only [splitRows]
    by_cases hi : i ∈ ign
    · simp [hi, ih]
    · simp only [hi, if_false]
      cases api.popu_list.get? i with
      | none => rfl
      | some p => simp [pyTruthy, ih]

theorem splitRows_char (api : API) (ign : List Nat) (s : String) (hs : s ≠ "")
    (fvi : Nat) (hfvi : pyIndexNat api.variant_name_list s = some fvi)
    (hnd : api.ancestry_list.Nodup) :
    ∀ (rows : List (List Nat)) (i : Nat) (g h : String → Nat),
      (∀ k, k < rows.length → (i + k) ∉ ign →
        ∃ p, api.popu_list.get? (i + k) = some p ∧ p ∈ api.ancestry_list) →
      (∀ r ∈ rows, fvi < r.length) →
      splitRows api ign (some s) rows i
          (api.ancestry_list.map fun a => (a, g a)) (api.ancestry_list.map fun a => (a, h a))
        = .ok (api.ancestry_list.map fun a =>
                (a, g a + rowCnt api.popu_list ign fvi true a rows i),
               api.ancestry_list.map fun a =>
                (a, h a + rowCnt api.popu_list ign fvi false a rows i)) := by
  have hpt : pyTruthy (some s) = true := by simp [pyTruthy, hs]
  have hpidx : pyIndex api.variant_name_list ((some s).getD "") = .ok fvi := by
    simpa using pyIndex_ok_of_some _ s fvi hfvi
  intro rows
  induction rows with
  | nil => intro i g h _ _; simp [splitRows, rowCnt]
  | cons r rest ih =>
    intro i g h hpop hlen
    have hshift : ∀ k, k < rest.length → (i + 1 + k) ∉ ign →
        ∃ p, api.popu_list.get? (i + 1 + k) = some p ∧ p ∈ api.ancestry_list := by
      intro k hk hkn
      have e1 : i + 1 + k = i + (k + 1) := by omega
      rw [e1] at hkn ⊢
      exact hpop (k + 1) (by simp only [List.length_cons]; omega) hkn
    have hlen2 : ∀ r2 ∈ rest, fvi < r2.length := fun r2 h2 => hlen r2 (by simp [h2])
    by_cases hi : i ∈ ign
    · have hr : ∀ (tgt : Bool) (a : String),
          rowCnt api.popu_list ign fvi tgt a (r :: rest) i
            = rowCnt api.popu_list ign fvi tgt a rest (i + 1) := by
        intro tgt a
        simp [rowCnt, hi]
      have heq : splitRows api ign (some s) (r :: rest) i
            (api.ancestry_list.map fun a => (a, g a)) (api.ancestry_list.map fun a => (a, h a))
          = splitRows api ign (some s) rest (i + 1)
            (api.ancestry_list.map fun a => (a, g a))
            (api.ancestry_list.map fun a => (a, h a)) := by
        simp only [splitRows, hi, if_true]
      rw [heq, ih (i + 1) g h hshift hlen2]
      simp only [hr]
    · obtain ⟨p, hp0, hpanc⟩ := hpop 0 (by simp) hi
      have hp : api.popu_list.get? i = some p := hp0
      have hfr : fvi < r.length := hlen r (by simp)
      obtain ⟨v, hv⟩ : ∃ v, r.get? fvi = some v := by
        rw [List.get?_eq_getElem?]
        exact ⟨r[fvi], List.getElem?_eq_getElem hfr⟩
      have hp2 : api.popu_list[i]? = some p := by rw [← List.get?_eq_getElem?]; exact hp
      have hv2 : r[fvi]? = some v := by rw [← List.get?_eq_getElem?]; exact hv
      have hgd : api.popu_list[i]?.getD "" = p := by rw [hp2]; rfl
      have hrd : r[fvi]?.getD 0 = v := by rw [hv2]; rfl
      have hpidx2 : pyIndex api.variant_name_list s = .ok fvi := pyIndex_ok_of_some _ s fvi hfvi
      by_cases hv1 : v = 1
      · have heq : splitRows api ign (some s) (r :: rest) i
              (api.ancestry_list.map fun a => (a, g a)) (api.ancestry_list.map fun a => (a, h a))
            = splitRows api ign (some s) rest (i + 1)
              (api.ancestry_list.map fun a => (a, if a = p then g a + 1 else g a))
              (api.ancestry_list.map fun a => (a, h a)) := by
          simp [splitRows, hi, hp2, hpt, hpidx2, hv2, hv1,
            dictIncr_map_of_mem api.ancestry_list hnd g p hpanc]
        rw [heq, ih (i + 1) (fun a => if a = p then g a + 1 else g a) h hshift hlen2]
        congr 1
        congr 1
        · refine List.map_congr_left (fun a _ => ?_)
          have : rowCnt api.popu_list ign fvi true a (r :: rest) i
              = (if p = a then 1 else 0) + rowCnt api.popu_list ign fvi true a rest (i + 1) := by
            simp [rowCnt, hi, hgd, hrd, hv1]
          rw [this]
          by_cases hap : a = p
          · subst hap
            simp
            omega
          · have hpa : ¬ p = a := fun h2 => hap h2.symm
            simp [hap, hpa]
        · refine List.map_congr_left (fun a _ => ?_)
          have : rowCnt api.popu_list ign fvi false a (r :: rest) i
              = rowCnt api.popu_list ign fvi false a rest (i + 1) := by
            simp [rowCnt, hi, hgd, hrd, hv1]
          rw [this]
      · have heq : splitRows api ign (some s) (r :: rest) i
              (api.ancestry_list.map fun a => (a, g a)) (api.ancestry_list.map fun a => (a, h a))
            = splitRows api ign (some s) rest (i + 1)
              (api.ancestry_list.map fun a => (a, g a))
              (api.ancestry_list.map fun a => (a, if a = p then h a + 1 else h a)) := by
          simp [splitRows, hi, hp2, hpt, hpidx2, hv2, hv1,
            dictIncr_map_of_mem api.ancestry_list hnd h p hpanc]
        rw [heq, ih (i + 1) g (fun a => if a = p then h a + 1 else h a) hshift hlen2]
        congr 1
        congr 1
        · refine List.map_congr_left (fun a _ => ?_)
          have : rowCnt api.popu_list ign fvi true a (r :: rest) i
              = rowCnt api.popu_list ign fvi true a rest (i + 1) := by
            simp [rowCnt, hi, hgd, hrd, hv1]
          rw [this]
        · refine List.map_congr_left (fun a _ => ?_)
          have : rowCnt api.popu_list ign fvi false a (r :: rest) i
              = (if p = a then 1 else 0) + rowCnt api.popu_list ign fvi false a rest (i + 1) := by
            simp [rowCnt, hi, hgd, hrd, hv1]
          rw [this]
          by_cases hap : a = p
          · subst hap
            simp
            omega
          · have hpa : ¬ p = a := fun h2 => hap h2.symm
            simp [hap, hpa]

theorem find_ignore_rows_ok (api : API) (sp : SplitPath)
    (hsp : ∀ v ∈ sp.1, v ∈ api.variant_name_list)
    (hrows : ∀ r ∈ api.variant_list, r.length = api.variant_name_list.length) :
    ∃ l, find_ignore_rows api sp = .ok l :=
  findIgnoreGo_ok api (sp.1.zip sp.2)
    (fun p hp => hsp p.1 (List.of_mem_zip hp).1) hrows []

theorem popu_get_of_WF (api : API) (hlen : api.popu_list.length = api.variant_list.length)
    (hpanc : ∀ p ∈ api.popu_list, p ∈ api.ancestry_list) (ign : List Nat) :
    ∀ k, k < api.variant_list.length → (0 + k) ∉ ign →
      ∃ p, api.popu_list.get? (0 + k) = some p ∧ p ∈ api.ancestry_list := by
  intro k hk _
  have hk2 : k < api.popu_list.length := by omega
  obtain ⟨p, hp⟩ : ∃ p, api.popu_list.get? k = some p := by
    rw [List.get?_eq_getElem?]
    exact ⟨api.popu_list[k], List.getElem?_eq_getElem hk2⟩
  exact ⟨p, by simpa using hp, hpanc p (List.get?_mem hp)⟩

theorem split_subset_char (api : API) (hWF : api.WF) (sp : SplitPath)
    (hsp : ∀ v ∈ sp.1, v ∈ api.variant_name_list) (X : String)
    (hX : X ∈ api.variant_name_list) :
    ∃ ign fvi,
      find_ignore_rows api sp = .ok ign ∧
      pyIndexNat api.variant_name_list X = some fvi ∧
      split_subset api sp (some X)
        = .ok (api.ancestry_list.map fun a =>
                 (a, rowCnt api.popu_list ign fvi true a api.variant_list 0),
               api.ancestry_list.map fun a =>
                 (a, rowCnt api.popu_list ign fvi false a api.variant_list 0)) := by
  obtain ⟨hrows, hlen, hpanc, hndn, hnda, hne⟩ := hWF
  obtain ⟨ign, hign⟩ := find_ignore_rows_ok api sp hsp hrows
  obtain ⟨fvi, hfvi⟩ := pyIndexNat_isSome _ X hX
  have hXlt := pyIndexNat_lt _ X fvi hfvi
  have hpop := popu_get_of_WF api hlen hpanc ign
  have hlenr : ∀ r ∈ api.variant_list, fvi < r.length := fun r hr => (hrows r hr) ▸ hXlt
  have hchar := splitRows_char api ign X (hne X hX) fvi hfvi hnda api.variant_list 0
      (fun _ => 0) (fun _ => 0) hpop hlenr
  refine ⟨ign, fvi, hign, hfvi, ?_⟩
  simp only [split_subset, hign]
  simpa [fromKeys] using hchar

/-! ## Lemmas about the candidate scanner -/

theorem bumpSpec_length (p : String) :
    ∀ (r : List Nat) (fs : List (String → Nat)), (bumpSpec p r fs).length = fs.length := by
  intro r
  induction r with
  | nil => intro fs; rfl
  | cons v vs ih =>
    intro fs
    cases fs with
    | nil => rfl
    | cons f fs2 => simp [bumpSpec, ih fs2]

theorem bumpRow_char (anc : List String) (hnd : anc.Nodup) (p : String) (hp : p ∈ anc) :
    ∀ (r : List Nat) (fs : List (String → Nat)), r.length ≤ fs.length →
      bumpRow p r (fs.map fun f => anc.map fun a => (a, f a))
        = .ok ((bumpSpec p r fs).map fun f => anc.map fun a => (a, f a)) := by
  intro r
  induction r with
  | nil => intro fs _; simp [bumpRow, bumpSpec]
  | cons v vs ih =>
    intro fs hlen
    cases fs with
    | nil => simp at hlen
    | cons f fs2 =>
      have hlen2 : vs.length ≤ fs2.length := by
        simp only [List.length_cons] at hlen
        omega
      by_cases hv1 : v = 1
      · simp [bumpRow, bumpSpec, hv1, dictIncr_map_of_mem anc hnd f p hp, ih fs2 hlen2]
      · simp [bumpRow, bumpSpec, hv1, ih fs2 hlen2]

theorem fnvGo_char (api : API) (ign : List Nat) (hnd : api.ancestry_list.Nodup) :
    ∀ (rows : List (List Nat)) (i : Nat) (fs : List (String → Nat)),
      (∀ k, k < rows.length → (i + k) ∉ ign →
        ∃ p, api.popu_list.get? (i + k) = some p ∧ p ∈ api.ancestry_list) →
      (∀ r ∈ rows, r.length ≤ fs.length) →
      fnvGo api ign rows i (fs.map fun f => api.ancestry_list.map fun a => (a, f a))
        = .ok ((fnvSpec api.popu_list ign rows i fs).map fun f =>
                 api.ancestry_list.map fun a => (a, f a)) := by
  intro rows
  induction rows with
  | nil => intro i fs _ _; simp [fnvGo, fnvSpec]
  | cons r rest ih =>
    intro i fs hpop hlen
    have hshift : ∀ k, k < rest.length → (i + 1 + k) ∉ ign →
        ∃ p, api.popu_list.get? (i + 1 + k) = some p ∧ p ∈ api.ancestry_list := by
      intro k hk hkn
      have e1 : i + 1 + k = i + (k + 1) := by omega
      rw [e1] at hkn ⊢
      exact hpop (k + 1) (by simp only [List.length_cons]; omega) hkn
    by_cases hi : i ∈ ign
    · have h1 : fnvGo api ign (r :: rest) i
            (fs.map fun f => api.ancestry_list.map fun a => (a, f a))
          = fnvGo api ign rest (i + 1)
            (fs.map fun f => api.ancestry_list.map fun a => (a, f a)) := by
        simp only [fnvGo, hi, if_true]
      have h2 : fnvSpec api.popu_list ign (r :: rest) i fs
          = fnvSpec api.popu_list ign rest (i + 1) fs := by
        simp only [fnvSpec, hi, if_true]
      rw [h1, h2]
      exact ih (i + 1) fs hshift (fun r2 h2 => hlen r2 (by simp [h2]))
    · obtain ⟨p, hp0, hpanc⟩ := hpop 0 (by simp) hi
      have hp : api.popu_list.get? i = some p := hp0
      have hp2 : api.popu_list[i]? = some p := by rw [← List.get?_eq_getElem?]; exact hp
      have hgd : api.popu_list.getD i "" = p := getD_of_get? _ i p "" hp
      have hbump := bumpRow_char api.ancestry_list hnd p hpanc r fs (hlen r (by simp))
      have hrec := ih (i + 1) (bumpSpec p r fs) hshift
        (fun r2 h2 => by rw [bumpSpec_length]; exact hlen r2 (by simp [h2]))
      have h1 : fnvGo api ign (r :: rest) i
            (fs.map fun f => api.ancestry_list.map fun a => (a, f a))
          = fnvGo api ign rest (i + 1)
            ((bumpSpec p r fs).map fun f => api.ancestry_list.map fun a => (a, f a)) := by
        simp [fnvGo, hi, hp2, hbump]
      have h2 : fnvSpec api.popu_list ign (r :: rest) i fs
          = fnvSpec api.popu_list ign rest (i + 1) (bumpSpec p r fs) := by
        simp only [fnvSpec, hi, if_false, hgd]
      rw [h1, h2, hrec]

theorem bumpSpec_get? (p : String) :
    ∀ (r : List Nat) (fs : List (String → Nat)) (t : Nat),
      (bumpSpec p r fs).get? t
        = (fs.get? t).map
            (fun f => if r.getD t 0 = 1 then (fun a => if a = p then f a + 1 else f a) else f) := by
  intro r
  induction r with
  | nil =>
    intro fs t
    simp only [List.get?_eq_getElem?]
    cases h : fs[t]? <;> simp [bumpSpec, h]
  | cons v vs ih =>
    intro fs t
    cases fs with
    | nil => simp [bumpSpec]
    | cons f fs2 =>
      cases t with
      | zero => simp [bumpSpec]
      | succ t2 => simpa [bumpSpec] using ih fs2 t2

theorem fnvSpec_get? (popuL : List String) (ign : List Nat) :
    ∀ (rows : List (List Nat)) (i : Nat) (fs : List (String → Nat)) (t : Nat),
      (fnvSpec popuL ign rows i fs).get? t
        = (fs.get? t).map (fun f => fun a => f a + rowCnt popuL ign t true a rows i) := by
  intro rows
  induction rows with
  | nil =>
    intro i fs t
    simp only [List.get?_eq_getElem?]
    cases h : fs[t]? <;> simp [fnvSpec, rowCnt, h]
  | cons r rest ih =>
    intro i fs t
    by_cases hi : i ∈ ign
    · have h2 : fnvSpec popuL ign (r :: rest) i fs = fnvSpec popuL ign rest (i + 1) fs := by
        simp only [fnvSpec, hi, if_true]
      rw [h2, ih (i + 1) fs t]
      cases h : fs.get? t with
      | none => simp
      | some f =>
        simp only [Option.map_some', Option.some.injEq]
        funext a
        simp [rowCnt, hi]
    · have h2 : fnvSpec popuL ign (r :: rest) i fs
          = fnvSpec popuL ign rest (i + 1) (bumpSpec (popuL.getD i "") r fs) := by
        simp only [fnvSpec, hi, if_false]
      rw [h2, ih (i + 1) (bumpSpec (popuL.getD i "") r fs) t,
        bumpSpec_get? (popuL.getD i "") r fs t]
      cases h : fs.get? t with
      | none => simp
      | some f =>
        simp only [Option.map_some', Option.some.injEq]
        funext a
        have hgd : r.getD t 0 = r[t]?.getD 0 := List.getD_eq_getElem?_getD r t 0
        by_cases hb : r.getD t 0 = 1
        · have hb2 : r[t]?.getD 0 = 1 := hgd.symm.trans hb
          by_cases hap : a = popuL.getD i ""
          · subst hap
            simp [rowCnt, hi, hb, hb2]
            omega
          · have hgdp : popuL.getD i "" = popuL[i]?.getD "" := List.getD_eq_getElem?_getD popuL i ""
            have hap2 : ¬ a = popuL[i]?.getD "" := fun h2 => hap (h2.trans hgdp.symm)
            have hpa2 : ¬ popuL[i]?.getD "" = a := fun h2 => hap (hgdp.trans h2).symm
            simp [rowCnt, hi, hb, hb2, hap2, hpa2]
        · have hb2 : ¬ r[t]?.getD 0 = 1 := fun h2 => hb (hgd.trans h2)
          simp [rowCnt, hi, hb, hb2]

theorem fnv_char (api : API) (hWF : api.WF) (sp : SplitPath)
    (hsp : ∀ v ∈ sp.1, v ∈ api.variant_name_list) :
    ∃ ign, find_ignore_rows api sp = .ok ign ∧
      find_next_variant_counts api sp
        = .ok ((fnvSpec api.popu_list ign api.variant_list 0
                 (api.variant_name_list.map fun _ => fun _ => 0)).map
                   (fun f => api.ancestry_list.map fun a => (a, f a))) := by
  obtain ⟨hrows, hlen, hpanc, hndn, hnda, hne⟩ := hWF
  obtain ⟨ign, hign⟩ := find_ignore_rows_ok api sp hsp hrows
  have hpop := popu_get_of_WF api hlen hpanc ign
  have hlenr : ∀ r ∈ api.variant_list,
      r.length ≤ (api.variant_name_list.map fun _ => fun _ : String => 0).length := by
    intro r hr
    simp [hrows r hr]
  have hchar := fnvGo_char api ign hnda api.variant_list 0
      (api.variant_name_list.map fun _ => fun _ => 0) hpop hlenr
  refine ⟨ign, hign, ?_⟩
  simp only [find_next_variant_counts, hign]
  rw [← hchar]
  congr 1
  simp [fromKeys, List.map_map]

/-! ## Pure counting identities -/

theorem rowCnt_true_add_false (popuL : List String) (ign : List Nat) (col : Nat) (a : String) :
    ∀ (rows : List (List Nat)) (i : Nat),
      rowCnt popuL ign col true a rows i + rowCnt popuL ign col false a rows i
        = popuCntFrom popuL ign a rows i := by
  intro rows
  induction rows with
  | nil => intro i; rfl
  | cons r rest ih =>
    intro i
    have hih := ih (i + 1)
    simp only [rowCnt, popuCntFrom]
    by_cases hi : i ∉ ign
    · by_cases hpa : popuL.getD i "" = a
      · by_cases hb : (r.getD col 0 == 1) = true
        · have he : (r.getD col 0 == 1) = false → False :=
            fun hc => Bool.false_ne_true (hc.symm.trans hb)
          rw [if_pos ⟨hi, hpa, hb⟩, if_neg (fun hc => he hc.2.2), if_pos ⟨hi, hpa⟩]
          omega
        · have hb2 : (r.getD col 0 == 1) = false := by
            cases hq : (r.getD col 0 == 1)
            · rfl
            · exact absurd hq hb
          rw [if_neg (fun hc => hb hc.2.2), if_pos ⟨hi, hpa, hb2⟩, if_pos ⟨hi, hpa⟩]
          omega
      · rw [if_neg (fun hc => hpa hc.2.1), if_neg (fun hc => hpa hc.2.1),
          if_neg (fun hc => hpa hc.2)]
        omega
    · rw [if_neg (fun hc => hi hc.1), if_neg (fun hc => hi hc.1), if_neg (fun hc => hi hc.1)]
      omega

theorem sum_popuCntFrom (popuL : List String) (ign : List Nat) (anc : List String)
    (hnd : anc.Nodup) :
    ∀ (rows : List (List Nat)) (i : Nat),
      (∀ k, k < rows.length → (i + k) ∉ ign → popuL.getD (i + k) "" ∈ anc) →
      (anc.map fun a => popuCntFrom popuL ign a rows i).sum = eligCnt ign rows i := by
  intro rows
  induction rows with
  | nil => intro i _; simp [popuCntFrom, eligCnt]
  | cons r rest ih =>
    intro i hpop
    have hshift : ∀ k, k < rest.length → (i + 1 + k) ∉ ign →
        popuL.getD (i + 1 + k) "" ∈ anc := by
      intro k hk hkn
      have e1 : i + 1 + k = i + (k + 1) := by omega
      rw [e1] at hkn ⊢
      exact hpop (k + 1) (by simp only [List.length_cons]; omega) hkn
    simp only [popuCntFrom, eligCnt]
    rw [sum_map_add anc (fun a => if i ∉ ign ∧ popuL.getD i "" = a then 1 else 0)
      (fun a => popuCntFrom popuL ign a rest (i + 1))]
    rw [ih (i + 1) hshift]
    by_cases hi : i ∉ ign
    · have hp : popuL.getD i "" ∈ anc := hpop 0 (by simp) hi
      have h1 : (anc.map fun a => if i ∉ ign ∧ popuL.getD i "" = a then 1 else 0)
          = anc.map fun a => if popuL.getD i "" = a then 1 else 0 :=
        List.map_congr_left (fun a _ => by simp [hi])
      rw [h1, sum_map_ite_eq anc hnd (popuL.getD i "")]
      have hp2 : popuL[i]?.getD "" ∈ anc := (List.getD_eq_getElem?_getD popuL i "") ▸ hp
      simp [hi, hp, hp2]
    · have h1 : (anc.map fun a => if i ∉ ign ∧ popuL.getD i "" = a then 1 else 0)
          = anc.map fun _ => 0 :=
        List.map_congr_left (fun a _ => by simp [hi])
      rw [h1]
      simp [hi, List.map_const]

theorem eligCnt_eq_filter (ign : List Nat) :
    ∀ (rows : List (List Nat)) (i : Nat),
      eligCnt ign rows i
        = ((List.range' i rows.length).filter (fun j => decide (j ∉ ign))).length := by
  intro rows
  induction rows with
  | nil => intro i; simp [eligCnt]
  | cons r rest ih =>
    intro i
    simp only [eligCnt, List.length_cons, List.range'_succ, List.filter_cons]
    by_cases hi : i ∉ ign
    · simp [hi, ih (i + 1), Nat.add_comm]
    · simp [hi, ih (i + 1)]

theorem sumCounts_map (anc : List String) (f : String → Nat) :
    sumCounts (anc.map fun a => (a, f a)) = (anc.map f).sum := by
  have hc : ((fun x : String × Nat => x.2) ∘ fun a => (a, f a)) = f := funext (fun _ => rfl)
  simp [sumCounts, List.map_map, hc]

theorem dictIncrD_map_of_mem (l : List String) (hl : l.Nodup) (f : String → Nat)
    (p : String) (hp : p ∈ l) :
    dictIncrD (l.map fun a => (a, f a)) p
      = l.map fun a => (a, if a = p then f a + 1 else f a) := by
  induction l with
  | nil => simp at hp
  | cons a rest ih =>
    rcases List.nodup_cons.1 hl with ⟨ha, hrest⟩
    by_cases hap : a = p
    · subst hap
      have : rest.map (fun b => (b, if b = a then f b + 1 else f b)) = rest.map (fun b => (b, f b)) :=
        List.map_congr_left (fun b hb => by
          have : b ≠ a := fun hba => ha (hba ▸ hb)
          simp [this])
      simp [dictIncrD, this]
    · have hp2 : p ∈ rest := by
        rcases List.mem_cons.1 hp with h | h
        · exact absurd h.symm hap
        · exact h
      simp [dictIncrD, hap, ih hrest hp2]

theorem foldl_dictIncrD (anc : List String) (hnd : anc.Nodup) :
    ∀ (pl : List String) (f : String → Nat), (∀ p ∈ pl, p ∈ anc) →
      pl.foldl dictIncrD (anc.map fun a => (a, f a))
        = anc.map fun a => (a, f a + pl.count a) := by
  intro pl
  induction pl with
  | nil => intro f _; simp
  | cons p rest ih =>
    intro f hmem
    simp only [List.foldl_cons]
    rw [dictIncrD_map_of_mem anc hnd f p (hmem p (by simp))]
    rw [ih (fun a => if a = p then f a + 1 else f a) (fun q hq => hmem q (by simp [hq]))]
    refine List.map_congr_left (fun a ha => ?_)
    rw [List.count_cons]
    by_cases hap : a = p
    · subst hap
      simp
      omega
    · have hpa2 : ¬ p = a := fun h2 => hap h2.symm
      have hpa : (p == a) = false := by simp [hpa2]
      simp [hap, hpa]

theorem get_target_set_char (api : API)
    (hpanc : ∀ p ∈ api.popu_list, p ∈ api.ancestry_list)
    (hnd : api.ancestry_list.Nodup) :
    get_target_set api = api.ancestry_list.map fun a => (a, api.popu_list.count a) := by
  have := foldl_dictIncrD api.ancestry_list hnd api.popu_list (fun _ => 0) hpanc
  simpa [get_target_set, fromKeys] using this

theorem popuCntFrom_nil_ign (popuL : List String) (a : String) :
    ∀ (rows : List (List Nat)) (i : Nat),
      popuCntFrom popuL [] a rows i
        = ((List.range' i rows.length).map (fun j => popuL.getD j "")).count a := by
  intro rows
  induction rows with
  | nil => intro i; simp [popuCntFrom]
  | cons r rest ih =>
    intro i
    simp only [popuCntFrom, List.length_cons, List.range'_succ, List.map_cons, List.count_cons]
    rw [ih (i + 1)]
    by_cases hpa : popuL.getD i "" = a
    · have hpa3 : popuL[i]?.getD "" = a :=
        (List.getD_eq_getElem?_getD popuL i "").symm.trans hpa
      simp [hpa, hpa3]
      omega
    · have hpa2 : ¬ popuL[i]?.getD "" = a :=
        fun h2 => hpa ((List.getD_eq_getElem?_getD popuL i "").trans h2)
      simp [hpa2]

theorem range_map_getD (popuL : List String) :
    (List.range' 0 popuL.length).map (fun j => popuL.getD j "") = popuL := by
  apply List.ext_getElem
  · simp
  · intro n h1 h2
    simp only [List.getElem_map, List.getElem_range']
    rw [Nat.zero_add, Nat.one_mul]
    exact List.getD_eq_getElem popuL "" h2

/-! ## Lemmas about the global variant counter -/

theorem mem_keys_iff_alookup {β : Type} (d : List (String × β)) (n : String) :
    n ∈ d.map (·.1) ↔ (alookup n d).isSome := by
  induction d with
  | nil => simp [alookup]
  | cons kv rest ih =>
    obtain ⟨k, v⟩ := kv
    by_cases hk : k = n
    · simp [alookup, hk]
    · have hnk : ¬ n = k := fun h => hk h.symm
      simp [alookup, hk, hnk, ih]

theorem alookup_mem {β : Type} (d : List (String × β)) (n : String) (v : β)
    (h : alookup n d = some v) : (n, v) ∈ d := by
  induction d with
  | nil => simp [alookup] at h
  | cons kv rest ih =>
    obtain ⟨k, v2⟩ := kv
    by_cases hk : k = n
    · subst hk
      simp [alookup] at h
      simp [h]
    · simp only [alookup, hk, if_false] at h
      simp [ih h]

theorem lookVal_dictIncrD (d : Counts) (k n : String) :
    lookVal n (dictIncrD d k) = lookVal n d + (if k = n then 1 else 0) := by
  induction d with
  | nil => by_cases hk : k = n <;> simp [dictIncrD, lookVal, alookup, hk]
  | cons kv rest ih =>
    obtain ⟨k2, v2⟩ := kv
    by_cases h2 : k2 = k
    · subst h2
      by_cases hn : k2 = n <;> simp [dictIncrD, lookVal, alookup, hn]
    · by_cases hn : k2 = n
      · have hkn : ¬ k = n := fun h => h2 (hn.trans h.symm)
        have hnk2 : ¬ n = k := fun h => h2 (hn.trans h)
        simp [dictIncrD, lookVal, alookup, h2, hn, hkn, hnk2]
      · simp only [dictIncrD, h2, if_false]
        simp only [lookVal, alookup, hn, if_false] at ih ⊢
        exact ih

theorem pos_dictIncrD (d : Counts) (k : String) (hd : ∀ kv ∈ d, 0 < kv.2) :
    ∀ kv ∈ dictIncrD d k, 0 < kv.2 := by
  induction d with
  | nil =>
    intro kv hkv
    simp [dictIncrD] at hkv
    simp [hkv]
  | cons kv2 rest ih =>
    obtain ⟨k2, v2⟩ := kv2
    intro kv hkv
    by_cases h2 : k2 = k
    · simp only [dictIncrD, h2, if_true] at hkv
      rcases List.mem_cons.1 hkv with heq | hm
      · rw [heq]
        simp
      · exact hd kv (by simp [hm])
    · simp only [dictIncrD, h2, if_false] at hkv
      rcases List.mem_cons.1 hkv with heq | hm
      · rw [heq]
        exact hd (k2, v2) (by simp)
      · exact ih (fun q hq => hd q (by simp [hq])) kv hm

theorem alookup_pos_eq (d : Counts) (hd : ∀ kv ∈ d, 0 < kv.2) (n : String) :
    alookup n d = if 0 < lookVal n d then some (lookVal n d) else none := by
  cases h : alookup n d with
  | none => simp [lookVal, h]
  | some v =>
    have hv : 0 < v := hd (n, v) (alookup_mem d n v h)
    simp [lookVal, h, hv]

theorem rowColCnt_zero_not_mem (names : List String) (n : String) (hn : n ∉ names) :
    ∀ (r : List Nat) (i : Nat), i + r.length ≤ names.length → rowColCnt names n r i = 0 := by
  intro r
  induction r with
  | nil => intro i _; rfl
  | cons v vs ih =>
    intro i hlen
    have hi : i < names.length := by
      simp only [List.length_cons] at hlen
      omega
    have hne : ¬ names.getD i "" = n := by
      rw [List.getD_eq_getElem names "" hi]
      intro h
      exact hn (h ▸ List.getElem_mem hi)
    have hne2 : ¬ names[i]?.getD "" = n :=
      fun h => hne ((List.getD_eq_getElem?_getD names i "").trans h)
    have hrest := ih (i + 1) (by simp only [List.length_cons] at hlen; omega)
    simp [rowColCnt, hne, hne2, hrest]

theorem cvRow_char (names : List String) :
    ∀ (r : List Nat) (i : Nat) (d : Counts), i + r.length ≤ names.length →
      ∃ d2, cvRow names r i d = .ok d2 ∧
        (∀ n, lookVal n d2 = lookVal n d + rowColCnt names n r i) ∧
        ((∀ kv ∈ d, 0 < kv.2) → ∀ kv ∈ d2, 0 < kv.2) := by
  intro r
  induction r with
  | nil =>
    intro i d _
    exact ⟨d, rfl, fun n => by simp [rowColCnt], fun h => h⟩
  | cons v vs ih =>
    intro i d hlen
    have hi : i < names.length := by
      simp only [List.length_cons] at hlen
      omega
    have hlen2 : i + 1 + vs.length ≤ names.length := by
      simp only [List.length_cons] at hlen
      omega
    by_cases hv : v = 1
    · obtain ⟨nm, hnm⟩ : ∃ nm, names.get? i = some nm := by
        rw [List.get?_eq_getElem?]
        exact ⟨names[i], List.getElem?_eq_getElem hi⟩
      have hgd : names.getD i "" = nm := getD_of_get? _ i nm "" hnm
      obtain ⟨d2, hd2, hlook, hpos⟩ := ih (i + 1) (dictIncrD d nm) hlen2
      refine ⟨d2, ?_, ?_, ?_⟩
      · have heq : cvRow names (v :: vs) i d = cvRow names vs (i + 1) (dictIncrD d nm) := by
          simp only [cvRow, hv, if_true]
          rw [hnm]
        rw [heq]
        exact hd2
      · intro n
        rw [hlook n, lookVal_dictIncrD d nm n]
        simp only [rowColCnt, hgd, hv]
        by_cases hnn : nm = n
        · simp [hnn]
          omega
        · simp [hnn]
      · intro hd
        exact hpos (pos_dictIncrD d nm hd)
    · obtain ⟨d2, hd2, hlook, hpos⟩ := ih (i + 1) d hlen2
      refine ⟨d2, ?_, ?_, hpos⟩
      · have heq : cvRow names (v :: vs) i d = cvRow names vs (i + 1) d := by
          simp only [cvRow, hv, if_false]
        rw [heq]
        exact hd2
      · intro n
        rw [hlook n]
        simp [rowColCnt, hv]

theorem cvGo_char (names : List String) :
    ∀ (rows : List (List Nat)) (d : Counts),
      (∀ r ∈ rows, r.length ≤ names.length) →
      ∃ d2, cvGo names rows d = .ok d2 ∧
        (∀ n, lookVal n d2 = lookVal n d + (rows.map (fun r => rowColCnt names n r 0)).sum) ∧
        ((∀ kv ∈ d, 0 < kv.2) → ∀ kv ∈ d2, 0 < kv.2) := by
  intro rows
  induction rows with
  | nil =>
    intro d _
    exact ⟨d, rfl, fun n => by simp, fun h => h⟩
  | cons r rest ih =>
    intro d hlen
    obtain ⟨d1, hd1, hlook1, hpos1⟩ := cvRow_char names r 0 d (by simpa using hlen r (by simp))
    obtain ⟨d2, hd2, hlook2, hpos2⟩ := ih d1 (fun r2 h2 => hlen r2 (by simp [h2]))
    refine ⟨d2, ?_, ?_, ?_⟩
    · simp only [cvGo, hd1]
      exact hd2
    · intro n
      rw [hlook2 n, hlook1 n]
      simp only [List.map_cons, List.sum_cons]
      omega
    · intro hd
      exact hpos2 (hpos1 hd)

theorem count_variants_char (api : API)
    (hrows : ∀ r ∈ api.variant_list, r.length = api.variant_name_list.length) :
    ∃ d, count_variants api = .ok d ∧
      (∀ kv ∈ d, 0 < kv.2) ∧
      (∀ n, lookVal n d = colTotal api.variant_name_list api.variant_list n) := by
  obtain ⟨d, hd, hlook, hpos⟩ := cvGo_char api.variant_name_list api.variant_list []
    (fun r hr => le_of_eq (hrows r hr))
  refine ⟨d, hd, hpos (by simp), fun n => ?_⟩
  rw [hlook n]
  simp [lookVal, alookup, colTotal]

theorem rowColCnt_nodup (names : List String) (hnd : names.Nodup) (j : Nat) (n : String)
    (hj : names.get? j = some n) :
    ∀ (r : List Nat) (i : Nat), i + r.length ≤ names.length →
      rowColCnt names n r i
        = if i ≤ j ∧ j - i < r.length ∧ r.getD (j - i) 0 = 1 then 1 else 0 := by
  have hjlt : j < names.length := by
    by_contra hjge
    rw [List.get?_eq_getElem?, List.getElem?_eq_none (by omega)] at hj
    cases hj
  intro r
  induction r with
  | nil =>
    intro i _
    have : ¬ (i ≤ j ∧ j - i < ([] : List Nat).length ∧ ([] : List Nat).getD (j - i) 0 = 1) := by
      simp
    simp [rowColCnt]
  | cons v vs ih =>
    intro i hlen
    have hi : i < names.length := by
      simp only [List.length_cons] at hlen
      omega
    have hlen2 : i + 1 + vs.length ≤ names.length := by
      simp only [List.length_cons] at hlen
      omega
    by_cases hij : i = j
    · subst hij
      have hgd : names.getD i "" = n := getD_of_get? _ i n "" hj
      have htail : rowColCnt names n vs (i + 1) = 0 := by
        rw [ih (i + 1) hlen2]
        have : ¬ (i + 1 ≤ i) := by omega
        simp [this]
      simp only [rowColCnt, hgd, htail]
      by_cases hv : v = 1
      · have hc : i ≤ i ∧ i - i < (v :: vs).length ∧ (v :: vs).getD (i - i) 0 = 1 := by
          refine ⟨le_refl i, by simp, ?_⟩
          have : i - i = 0 := by omega
          simp [this, hv]
        simp [hv, hc]
      · have hc : ¬ (i ≤ i ∧ i - i < (v :: vs).length ∧ (v :: vs).getD (i - i) 0 = 1) := by
          intro hc2
          have : i - i = 0 := by omega
          rw [this] at hc2
          simp at hc2
          exact hv hc2
        simp [hv, hc]
    · have hne : ¬ names.getD i "" = n := by
        rw [List.getD_eq_getElem names "" hi]
        intro h
        have hgi : names.get? i = some n := by
          rw [List.get?_eq_getElem?, List.getElem?_eq_getElem hi, h]
        exact hij (List.get?_inj hi hnd (hgi.trans hj.symm))
      rw [show rowColCnt names n (v :: vs) i
          = (if names.getD i "" = n ∧ v = 1 then 1 else 0) + rowColCnt names n vs (i + 1) from rfl]
      rw [ih (i + 1) hlen2]
      simp only [hne, false_and, if_false, Nat.zero_add]
      by_cases hij2 : i + 1 ≤ j
      · have e1 : j - i = (j - (i + 1)) + 1 := by omega
        by_cases hd2 : j - (i + 1) < vs.length ∧ vs.getD (j - (i + 1)) 0 = 1
        · have hc : i ≤ j ∧ j - i < (v :: vs).length ∧ (v :: vs).getD (j - i) 0 = 1 := by
            refine ⟨by omega, by simp only [List.length_cons]; omega, ?_⟩
            rw [e1, List.getD_cons_succ]
            exact hd2.2
          rw [if_pos ⟨hij2, hd2.1, hd2.2⟩, if_pos hc]
        · have hc : ¬ (i ≤ j ∧ j - i < (v :: vs).length ∧ (v :: vs).getD (j - i) 0 = 1) := by
            intro hc2
            rw [e1, List.getD_cons_succ] at hc2
            refine hd2 ⟨?_, hc2.2.2⟩
            have := hc2.2.1
            simp only [List.length_cons] at this
            omega
          have hc3 : ¬ (i + 1 ≤ j ∧ j - (i + 1) < vs.length ∧ vs.getD (j - (i + 1)) 0 = 1) :=
            fun h3 => hd2 ⟨h3.2.1, h3.2.2⟩
          rw [if_neg hc3, if_neg hc]
      · have hc1 : ¬ (i + 1 ≤ j ∧ j - (i + 1) < vs.length ∧ vs.getD (j - (i + 1)) 0 = 1) := by
          intro hc2
          exact hij2 hc2.1
        have hc2 : ¬ (i ≤ j ∧ j - i < (v :: vs).length ∧ (v :: vs).getD (j - i) 0 = 1) := by
          intro hc3
          obtain ⟨h31, _⟩ := hc3
          have : i = j := by omega
          exact hij this
        rw [if_neg hc1, if_neg hc2]

theorem sum_map_ite_count (rows : List (List Nat)) (j : Nat) :
    (rows.map fun r => if r.getD j 0 = 1 then 1 else 0).sum
      = rows.countP (fun r => r.getD j 0 == 1) := by
  induction rows with
  | nil => rfl
  | cons r rest ih =>
    rw [List.map_cons, List.sum_cons, List.countP_cons, ih]
    by_cases hr : r.getD j 0 = 1
    · rw [if_pos hr, if_pos (beq_iff_eq.mpr hr)]
      omega
    · rw [if_neg hr, if_neg (fun h => hr (beq_iff_eq.mp h))]
      omega

/-! ## Lemmas about the genotype-matrix construction -/

theorem lookValL_dictAppendBit (d : List (String × List Nat)) (s s2 : String) (b : Nat) :
    lookValL s2 (dictAppendBit d s b)
      = if s = s2 then lookValL s2 d ++ [b] else lookValL s2 d := by
  induction d with
  | nil => by_cases hs : s = s2 <;> simp [dictAppendBit, lookValL, alookup, hs]
  | cons kv rest ih =>
    obtain ⟨k, l⟩ := kv
    by_cases hk : k = s
    · by_cases hk2 : k = s2
      · have hs2 : s = s2 := hk.symm.trans hk2
        simp [dictAppendBit, lookValL, alookup, hk, hk2, hs2]
      · have hs : ¬ s = s2 := fun h => hk2 (hk.trans h)
        simp [dictAppendBit, lookValL, alookup, hk, hk2, hs]
    · simp only [dictAppendBit, hk, if_false]
      by_cases hk2 : k = s2
      · have hs : ¬ s = s2 := fun h => hk (hk2.trans h.symm)
        simp [lookValL, alookup, hk2, hs]
      · simp only [lookValL, alookup, hk2, if_false] at ih ⊢
        exact ih

theorem ne_nil_dictAppendBit (d : List (String × List Nat)) (s : String) (b : Nat)
    (hd : ∀ kv ∈ d, kv.2 ≠ []) : ∀ kv ∈ dictAppendBit d s b, kv.2 ≠ [] := by
  induction d with
  | nil =>
    intro kv hkv
    simp [dictAppendBit] at hkv
    simp [hkv]
  | cons kv2 rest ih =>
    obtain ⟨k, l⟩ := kv2
    intro kv hkv
    by_cases hk : k = s
    · simp only [dictAppendBit, hk, if_true] at hkv
      rcases List.mem_cons.1 hkv with heq | hm
      · rw [heq]
        simp
      · exact hd kv (by simp [hm])
    · simp only [dictAppendBit, hk, if_false] at hkv
      rcases List.mem_cons.1 hkv with heq | hm
      · rw [heq]
        exact hd (k, l) (by simp)
      · exact ih (fun q hq => hd q (by simp [hq])) kv hm

theorem processCalls_char (s2 : String) :
    ∀ (calls : List VCall) (d : List (String × List Nat)),
      lookValL s2 (processCalls calls d)
        = lookValL s2 d
            ++ (calls.filter (fun c => c.sample == s2)).map (fun c => classifyGT c.gt) := by
  intro calls
  induction calls with
  | nil => intro d; simp [processCalls]
  | cons c rest ih =>
    intro d
    have heq : processCalls (c :: rest) d
        = processCalls rest (dictAppendBit d c.sample (classifyGT c.gt)) := rfl
    rw [heq, ih (dictAppendBit d c.sample (classifyGT c.gt)),
      lookValL_dictAppendBit d c.sample s2 (classifyGT c.gt)]
    by_cases hcs : c.sample = s2
    · rw [List.filter_cons, if_pos (beq_iff_eq.mpr hcs)]
      simp [hcs, List.append_assoc]
    · rw [List.filter_cons, if_neg (fun h => hcs (beq_iff_eq.mp h))]
      simp [hcs]

theorem ne_nil_processCalls :
    ∀ (calls : List VCall) (d : List (String × List Nat)),
      (∀ kv ∈ d, kv.2 ≠ []) → ∀ kv ∈ processCalls calls d, kv.2 ≠ [] := by
  intro calls
  induction calls with
  | nil => intro d hd; exact hd
  | cons c rest ih =>
    intro d hd
    exact ih (dictAppendBit d c.sample (classifyGT c.gt))
      (ne_nil_dictAppendBit d c.sample (classifyGT c.gt) hd)

theorem buildDict_char (s2 : String) :
    ∀ (variants : List Variant) (d : List (String × List Nat)),
      lookValL s2 (variants.foldl (fun d v => processCalls v.samples d) d)
        = lookValL s2 d ++ sampleBits s2 variants := by
  intro variants
  induction variants with
  | nil => intro d; simp [sampleBits]
  | cons v rest ih =>
    intro d
    rw [List.foldl_cons, ih (processCalls v.samples d), processCalls_char s2 v.samples d]
    simp [sampleBits, List.append_assoc]

theorem ne_nil_buildDict :
    ∀ (variants : List Variant) (d : List (String × List Nat)),
      (∀ kv ∈ d, kv.2 ≠ []) →
      ∀ kv ∈ variants.foldl (fun d v => processCalls v.samples d) d, kv.2 ≠ [] := by
  intro variants
  induction variants with
  | nil => intro d hd; exact hd
  | cons v rest ih =>
    intro d hd
    exact ih (processCalls v.samples d) (ne_nil_processCalls v.samples d hd)

theorem alookup_ne_nil_eq (d : List (String × List Nat))
    (hd : ∀ kv ∈ d, kv.2 ≠ []) (s : String) :
    alookup s d = if lookValL s d = [] then none else some (lookValL s d) := by
  cases h : alookup s d with
  | none => simp [lookValL, h]
  | some l =>
    have hne : l ≠ [] := hd (s, l) (alookup_mem d s l h)
    simp [lookValL, h, hne]

/-! ## Lemmas about the population-mapping reader -/

theorem dictSetS_fresh (k v : String) :
    ∀ (d : List (String × String)), k ∉ d.map (·.1) → dictSetS d k v = d ++ [(k, v)] := by
  intro d
  induction d with
  | nil => intro _; rfl
  | cons kv rest ih =>
    obtain ⟨k2, v2⟩ := kv
    intro hk
    have hne : ¬ k2 = k := by
      intro h
      exact hk (by simp [h])
    simp only [dictSetS, hne, if_false, List.cons_append, List.cons.injEq, true_and]
    exact ih (fun h => hk (by simp [h]))

theorem rumGo_basic (vd : List (String × List Nat)) :
    ∀ (lines : List (List String)) (ad : List (String × String)) (il pl : List String)
      (vl : List (List Nat)) (ad2 : List (String × String)) (il2 pl2 : List String)
      (vl2 : List (List Nat)),
      rumGo vd lines ad il pl vl = .ok (ad2, il2, pl2, vl2) →
      (pl.length = vl.length → pl2.length = vl2.length) ∧
      (∀ r ∈ vl2, r ∈ vl ∨ ∃ k, alookup k vd = some r) := by
  intro lines
  induction lines with
  | nil =>
    intro ad il pl vl ad2 il2 pl2 vl2 h
    simp only [rumGo] at h
    cases h
    exact ⟨fun h2 => h2, fun r hr => Or.inl hr⟩
  | cons line rest ih =>
    intro ad il pl vl ad2 il2 pl2 vl2 h
    simp only [rumGo] at h
    cases h1 : line.get? 1 with
    | none =>
      rw [h1] at h
      simp at h
    | some indiv =>
      simp only [h1] at h
      cases h6 : line.get? 6 with
      | none =>
        rw [h6] at h
        simp at h
      | some popu =>
        simp only [h6] at h
        cases hvd : alookup indiv vd with
        | some bits =>
          simp only [hvd] at h
          obtain ⟨hlen, hrows⟩ := ih (dictSetS ad indiv popu) (il ++ [indiv]) (pl ++ [popu])
            (vl ++ [bits]) ad2 il2 pl2 vl2 h
          refine ⟨fun h2 => hlen (by simp [h2]), fun r hr => ?_⟩
          rcases hrows r hr with hm | hm
          · rcases List.mem_append.1 hm with hm2 | hm2
            · exact Or.inl hm2
            · simp only [List.mem_singleton] at hm2
              exact Or.inr ⟨indiv, hm2 ▸ hvd⟩
          · exact Or.inr hm
        | none =>
          simp only [hvd] at h
          exact ih (dictSetS ad indiv popu) il pl vl ad2 il2 pl2 vl2 h

theorem rumGo_popu (vd : List (String × List Nat)) :
    ∀ (lines : List (List String)) (ad : List (String × String)) (il pl : List String)
      (vl : List (List Nat)) (ad2 : List (String × String)) (il2 pl2 : List String)
      (vl2 : List (List Nat)),
      rumGo vd lines ad il pl vl = .ok (ad2, il2, pl2, vl2) →
      (lines.filterMap (fun l => l.get? 1)).Nodup →
      (∀ id ∈ lines.filterMap (fun l => l.get? 1), id ∉ ad.map (·.1)) →
      (∀ v2 ∈ ad.map (·.2), v2 ∈ ad2.map (·.2)) ∧
      (∀ p ∈ pl2, p ∈ pl ∨ p ∈ ad2.map (·.2)) := by
  intro lines
  induction lines with
  | nil =>
    intro ad il pl vl ad2 il2 pl2 vl2 h _ _
    simp only [rumGo] at h
    cases h
    exact ⟨fun v2 hv => hv, fun p hp => Or.inl hp⟩
  | cons line rest ih =>
    intro ad il pl vl ad2 il2 pl2 vl2 h hnd hfresh
    simp only [rumGo] at h
    cases h1 : line.get? 1 with
    | none =>
      rw [h1] at h
      simp at h
    | some indiv =>
      simp only [h1] at h
      cases h6 : line.get? 6 with
      | none =>
        rw [h6] at h
        simp at h
      | some popu =>
        simp only [h6] at h
        have h1c := (List.get?_eq_getElem? line 1).symm.trans h1
        have hfm : (line :: rest).filterMap (fun l => l.get? 1)
            = indiv :: rest.filterMap (fun l => l.get? 1) := by
          simp [List.filterMap_cons, h1c]
        rw [hfm] at hnd hfresh
        rcases List.nodup_cons.1 hnd with ⟨hindiv, hnd2⟩
        have hfresh0 : indiv ∉ ad.map (·.1) := hfresh indiv (by simp)
        have hset : dictSetS ad indiv popu = ad ++ [(indiv, popu)] :=
          dictSetS_fresh indiv popu ad hfresh0
        have hfresh2 : ∀ id ∈ rest.filterMap (fun l => l.get? 1),
            id ∉ (dictSetS ad indiv popu).map (·.1) := by
          intro id hid
          rw [hset]
          simp only [List.map_append, List.mem_append, List.map_cons, List.map_nil,
            List.mem_singleton, not_or]
          refine ⟨hfresh id (List.mem_cons_of_mem _ hid), ?_⟩
          intro hcon
          exact hindiv (hcon ▸ hid)
        have hmono : ∀ v2 ∈ ad.map (·.2), v2 ∈ (dictSetS ad indiv popu).map (·.2) := by
          intro v2 hv
          rw [hset]
          simp only [List.map_append, List.mem_append]
          exact Or.inl hv
        have hpopu : popu ∈ (dictSetS ad indiv popu).map (·.2) := by
          rw [hset]
          simp
        cases hvd : alookup indiv vd with
        | some bits =>
          simp only [hvd] at h
          obtain ⟨hm1, hm2⟩ := ih (dictSetS ad indiv popu) (il ++ [indiv]) (pl ++ [popu])
            (vl ++ [bits]) ad2 il2 pl2 vl2 h hnd2 hfresh2
          refine ⟨fun v2 hv => hm1 v2 (hmono v2 hv), fun p hp => ?_⟩
          rcases hm2 p hp with hm | hm
          · rcases List.mem_append.1 hm with hm3 | hm3
            · exact Or.inl hm3
            · simp only [List.mem_singleton] at hm3
              rw [hm3]
              exact Or.inr (hm1 popu hpopu)
          · exact Or.inr hm
        | none =>
          simp only [hvd] at h
          obtain ⟨hm1, hm2⟩ := ih (dictSetS ad indiv popu) il pl vl ad2 il2 pl2 vl2 h hnd2 hfresh2
          exact ⟨fun v2 hv => hm1 v2 (hmono v2 hv), hm2⟩

theorem read_user_mappings_char (vd : List (String × List Nat))
    (lines : List (List String)) (m : Mappings)
    (hok : read_user_mappings vd lines = .ok m)
    (hnd : (lines.filterMap (fun l => l.get? 1)).Nodup) :
    (∀ p ∈ m.popu_list, p ∈ m.ancestry_list) ∧
    m.ancestry_list.Nodup ∧
    m.popu_list.length = m.variant_list.length ∧
    (∀ r ∈ m.variant_list, ∃ k, alookup k vd = some r) := by
  simp only [read_user_mappings] at hok
  cases hrun : rumGo vd lines [] [] [] [] with
  | error e => rw [hrun] at hok; cases hok
  | ok res =>
    rw [hrun] at hok
    obtain ⟨ad, il, pl, vl⟩ := res
    simp only at hok
    cases hok
    obtain ⟨hmono, hpl⟩ := rumGo_popu vd lines [] [] [] [] ad il pl vl hrun hnd
      (by intro id _; simp)
    obtain ⟨hlen, hrows⟩ := rumGo_basic vd lines [] [] [] [] ad il pl vl hrun
    have hmem : ∀ p, p ∈ ((ad.map (·.2)).dedup).insertionSort (· ≤ ·) ↔ p ∈ ad.map (·.2) := by
      intro p
      rw [(List.perm_insertionSort (· ≤ ·) ((ad.map (·.2)).dedup)).mem_iff]
      exact List.mem_dedup
    refine ⟨?_, ?_, ?_, ?_⟩
    · intro p hp
      rcases hpl p hp with hm | hm
      · simp at hm
      · exact (hmem p).2 hm
    · exact (List.perm_insertionSort (· ≤ ·) ((ad.map (·.2)).dedup)).nodup_iff.2
        (List.nodup_dedup _)
    · exact hlen rfl
    · intro r hr
      rcases hrows r hr with hm | hm
      · simp at hm
      · exact hm

/-! ## Remaining helper lemmas -/

theorem addCounts_map (anc : List String) (f g : String → Nat) :
    addCounts (anc.map fun a => (a, f a)) (anc.map fun a => (a, g a))
      = anc.map fun a => (a, f a + g a) := by
  induction anc with
  | nil => rfl
  | cons a rest ih => simp [addCounts] at ih ⊢

theorem map_fst_map (anc : List String) (f : String → Nat) :
    (anc.map fun a => (a, f a)).map (·.1) = anc := by
  induction anc with
  | nil => rfl
  | cons a rest ih => simp [ih]

theorem sum_count_eq_length (anc : List String) (hnd : anc.Nodup) :
    ∀ (pl : List String), (∀ p ∈ pl, p ∈ anc) →
      (anc.map fun a => pl.count a).sum = pl.length := by
  intro pl
  induction pl with
  | nil => intro _; simp
  | cons p rest ih =>
    intro hmem
    have h1 : (anc.map fun a => List.count a (p :: rest)).sum
        = (anc.map fun a => List.count a rest + if p = a then 1 else 0).sum := by
      refine congrArg _ (List.map_congr_left fun a _ => ?_)
      rw [List.count_cons]
      by_cases hpa : p = a
      · simp [hpa]
      · have hb : (p == a) = false := by simp [hpa]
        simp [hpa, hb]
    rw [h1, sum_map_add, sum_map_ite_eq anc hnd p, ih (fun q hq => hmem q (by simp [hq]))]
    simp [hmem p (by simp)]

theorem exists_zip_pair (l1 : List String) :
    ∀ (l2 : List Nat), l1.length = l2.length → ∀ v ∈ l1, ∃ d, (v, d) ∈ l1.zip l2 := by
  induction l1 with
  | nil => intro l2 _ v hv; simp at hv
  | cons a rest ih =>
    intro l2 hlen v hv
    cases l2 with
    | nil => simp at hlen
    | cons d rest2 =>
      rcases List.mem_cons.1 hv with rfl | hv2
      · exact ⟨d, by simp⟩
      · obtain ⟨d2, hd2⟩ := ih rest2 (by simpa using hlen) v hv2
        exact ⟨d2, by simp [hd2]⟩

theorem splitRows_err_unknown (api : API) (ign : List Nat) (s : String) (hs : s ≠ "")
    (hmem : s ∉ api.variant_name_list) :
    ∀ (rows : List (List Nat)) (i : Nat) (w wo : Counts),
      (∃ k, k < rows.length ∧ (i + k) ∉ ign) →
      (∀ k, k < rows.length → (i + k) ∉ ign → (api.popu_list.get? (i + k)).isSome) →
      splitRows api ign (some s) rows i w wo = .error "UnknownVariant" := by
  intro rows
  induction rows with
  | nil =>
    intro i w wo hex _
    obtain ⟨k, hk, _⟩ := hex
    simp at hk
  | cons r rest ih =>
    intro i w wo hex hpop
    have hpt : pyTruthy (some s) = true := by simp [pyTruthy, hs]
    have herr2 : pyIndex api.variant_name_list s = .error "UnknownVariant" :=
      pyIndex_error_of_not_mem _ s hmem
    by_cases hi : i ∈ ign
    · have heq : splitRows api ign (some s) (r :: rest) i w wo
          = splitRows api ign (some s) rest (i + 1) w wo := by
        simp only [splitRows, hi, if_true]
      rw [heq]
      obtain ⟨k, hk, hkn⟩ := hex
      have hk0 : k ≠ 0 := by
        intro h0
        rw [h0] at hkn
        exact hkn (by simpa using hi)
      refine ih (i + 1) w wo ⟨k - 1, by simp only [List.length_cons] at hk; omega, ?_⟩ ?_
      · have e1 : i + 1 + (k - 1) = i + k := by omega
        rw [e1]
        exact hkn
      · intro k2 hk2 hk2n
        have e1 : i + 1 + k2 = i + (k2 + 1) := by omega
        rw [e1] at hk2n ⊢
        exact hpop (k2 + 1) (by simp only [List.length_cons]; omega) hk2n
    · obtain ⟨p, hp⟩ := Option.isSome_iff_exists.1 (hpop 0 (by simp) hi)
      have hp2 : api.popu_list.get? i = some p := hp
      have hp3 : api.popu_list[i]? = some p := by rw [← List.get?_eq_getElem?]; exact hp2
      simp [splitRows, hi, hp3, hpt, herr2]

theorem colTotal_zero_not_mem (names : List String) (rows : List (List Nat))
    (hrows : ∀ r ∈ rows, r.length ≤ names.length) (n : String) (hn : n ∉ names) :
    colTotal names rows n = 0 := by
  unfold colTotal
  have : rows.map (fun r => rowColCnt names n r 0) = rows.map (fun _ => 0) :=
    List.map_congr_left (fun r hr =>
      rowColCnt_zero_not_mem names n hn r 0 (by simpa using hrows r hr))
  rw [this]
  simp [List.map_const]

/-! ## The claims -/

/-- C1: for every well-formed state, every split path whose variants occur in
`variant_name_list`, and every variant `X` of `variant_name_list`, the entry
for `X` (at `X`'s catalogue index) in the list returned by
`find_next_variant_counts` is identical to the first ("has variant") mapping
returned by `split_subset` called with the same split path and candidate `X`. -/
theorem C1_fnv_entry_eq_split_subset (api : API) (hWF : api.WF) (sp : SplitPath)
    (hsp : ∀ v ∈ sp.1, v ∈ api.variant_name_list) (X : String)
    (hX : X ∈ api.variant_name_list) :
    ∃ fvi L w wo,
      pyIndex api.variant_name_list X = .ok fvi ∧
      find_next_variant_counts api sp = .ok L ∧
      split_subset api sp (some X) = .ok (w, wo) ∧
      L.get? fvi = some w := by
  obtain ⟨ign, fvi, hign, hfvi, hsplit⟩ := split_subset_char api hWF sp hsp X hX
  obtain ⟨ign2, hign2, hfnv⟩ := fnv_char api hWF sp hsp
  rw [hign] at hign2
  injection hign2 with hig
  subst hig
  refine ⟨fvi,
    (fnvSpec api.popu_list ign api.variant_list 0
      (api.variant_name_list.map fun _ => fun _ => 0)).map
        (fun f => api.ancestry_list.map fun a => (a, f a)),
    api.ancestry_list.map fun a => (a, rowCnt api.popu_list ign fvi true a api.variant_list 0),
    api.ancestry_list.map fun a => (a, rowCnt api.popu_list ign fvi false a api.variant_list 0),
    pyIndex_ok_of_some _ X fvi hfvi, hfnv, hsplit, ?_⟩
  rw [List.get?_map, fnvSpec_get? api.popu_list ign api.variant_list 0 _ fvi]
  have hget : (api.variant_name_list.map fun _ => fun _ : String => 0).get? fvi
      = some (fun _ => 0) := by
    rw [List.get?_map, pyIndexNat_get _ X fvi hfvi]
    rfl
  rw [hget]
  simp

/-- C1 witness: the concrete scenario of spec §8, path `(V1, with)`,
candidate `V2`. -/
theorem C1_witness :
    ∃ fvi L w wo,
      pyIndex apiW.variant_name_list "V2" = .ok fvi ∧
      find_next_variant_counts apiW (["V1"], [1]) = .ok L ∧
      split_subset apiW (["V1"], [1]) (some "V2") = .ok (w, wo) ∧
      L.get? fvi = some w :=
  C1_fnv_entry_eq_split_subset apiW (by decide) (["V1"], [1]) (by decide) "V2" (by decide)

/-- C2: for every well-formed state, valid split path and candidate variant
present in `variant_name_list`, `split_subset` skips exactly the rows
returned by `find_ignore_rows` and increments exactly one of its two
mappings per remaining row (the two mappings are exactly the per-population
tallies of the non-ignored rows, split by the bit at the candidate's
column), and the sum of all counts across both mappings equals the number
of eligible rows. -/
theorem C2_split_subset_partition (api : API) (hWF : api.WF) (sp : SplitPath)
    (hsp : ∀ v ∈ sp.1, v ∈ api.variant_name_list) (X : String)
    (hX : X ∈ api.variant_name_list) :
    ∃ ign fvi w wo,
      find_ignore_rows api sp = .ok ign ∧
      pyIndexNat api.variant_name_list X = some fvi ∧
      split_subset api sp (some X) = .ok (w, wo) ∧
      w = (api.ancestry_list.map fun a =>
            (a, rowCnt api.popu_list ign fvi true a api.variant_list 0)) ∧
      wo = (api.ancestry_list.map fun a =>
            (a, rowCnt api.popu_list ign fvi false a api.variant_list 0)) ∧
      sumCounts w + sumCounts wo
        = ((List.range api.variant_list.length).filter (fun j => decide (j ∉ ign))).length := by
  obtain ⟨ign, fvi, hign, hfvi, hsplit⟩ := split_subset_char api hWF sp hsp X hX
  obtain ⟨hrows, hlen, hpanc, hndn, hnda, hne⟩ := hWF
  refine ⟨ign, fvi, _, _, hign, hfvi, hsplit, rfl, rfl, ?_⟩
  rw [sumCounts_map, sumCounts_map, ← sum_map_add]
  have h1 : (api.ancestry_list.map fun a =>
      rowCnt api.popu_list ign fvi true a api.variant_list 0
        + rowCnt api.popu_list ign fvi false a api.variant_list 0)
      = api.ancestry_list.map fun a => popuCntFrom api.popu_list ign a api.variant_list 0 :=
    List.map_congr_left (fun a _ =>
      rowCnt_true_add_false api.popu_list ign fvi a api.variant_list 0)
  have hpop := popu_get_of_WF api hlen hpanc ign
  have hpopmem : ∀ k, k < api.variant_list.length → (0 + k) ∉ ign →
      api.popu_list.getD (0 + k) "" ∈ api.ancestry_list := by
    intro k hk hkn
    obtain ⟨p, hp, hpa⟩ := hpop k hk hkn
    rw [getD_of_get? _ _ p "" hp]
    exact hpa
  rw [h1, sum_popuCntFrom api.popu_list ign api.ancestry_list hnda api.variant_list 0 hpopmem,
    eligCnt_eq_filter, List.range_eq_range']

/-- C2 witness: the concrete scenario of spec §8, path `(V1, with)`,
candidate `V2`. -/
theorem C2_witness :
    ∃ ign fvi w wo,
      find_ignore_rows apiW (["V1"], [1]) = .ok ign ∧
      pyIndexNat apiW.variant_name_list "V2" = some fvi ∧
      split_subset apiW (["V1"], [1]) (some "V2") = .ok (w, wo) ∧
      w = (apiW.ancestry_list.map fun a =>
            (a, rowCnt apiW.popu_list ign fvi true a apiW.variant_list 0)) ∧
      wo = (apiW.ancestry_list.map fun a =>
            (a, rowCnt apiW.popu_list ign fvi false a apiW.variant_list 0)) ∧
      sumCounts w + sumCounts wo
        = ((List.range apiW.variant_list.length).filter (fun j => decide (j ∉ ign))).length :=
  C2_split_subset_partition apiW (by decide) (["V1"], [1]) (by decide) "V2" (by decide)

/-- C3: extending a split path (with equal-length components) by one
`(variant, direction)` constraint can only grow the ignore set: every row
index ignored under the parent path is also ignored under both extended
child paths produced by `create_split_path`, so the eligible set can only
shrink or stay the same. -/
theorem C3_path_extension_monotone (api : API) (sp : SplitPath)
    (hlen : sp.1.length = sp.2.length) (v : String) (l lw lwo : List Nat)
    (hp : find_ignore_rows api sp = .ok l)
    (hw : find_ignore_rows api (create_split_path sp v).1 = .ok lw)
    (hwo : find_ignore_rows api (create_split_path sp v).2 = .ok lwo) :
    ∀ j ∈ l, j ∈ lw ∧ j ∈ lwo := by
  simp only [find_ignore_rows, create_split_path] at hp hw hwo
  rw [List.zip_append hlen, findIgnoreGo_append api (sp.1.zip sp.2) _ []] at hw hwo
  rw [hp] at hw hwo
  intro j hj
  exact ⟨findIgnoreGo_mono api _ l lw hw j hj, findIgnoreGo_mono api _ l lwo hwo j hj⟩

/-- C3 witness: in the concrete scenario of spec §8 the parent path
`(V2, with)` ignores rows 0 and 2, and both extensions by `V1` keep
ignoring them. -/
theorem C3_witness : 2 ∈ [0, 2, 3] ∧ 2 ∈ [0, 2, 1] :=
  C3_path_extension_monotone apiW (["V2"], [1]) rfl "V1" [0, 2] [0, 2, 3] [0, 2, 1]
    rfl rfl rfl 2 (by decide)

/-- C4: for every well-formed state and every variant `X` of the catalogue,
`get_target_set` equals the pointwise per-population sum of the two
mappings returned by `split_subset` on the empty split path with candidate
`X`; moreover its key sequence is exactly the ancestry universe and its
values sum to the number of matrix rows (individuals). -/
theorem C4_target_set_eq_split_sum (api : API) (hWF : api.WF) (X : String)
    (hX : X ∈ api.variant_name_list) :
    ∃ w wo,
      split_subset api (([], []) : SplitPath) (some X) = .ok (w, wo) ∧
      get_target_set api = addCounts w wo ∧
      (get_target_set api).map (·.1) = api.ancestry_list ∧
      sumCounts (get_target_set api) = api.variant_list.length := by
  obtain ⟨ign, fvi, hign, hfvi, hsplit⟩ := split_subset_char api hWF ([], []) (by simp) X hX
  obtain ⟨hrows, hlen, hpanc, hndn, hnda, hne⟩ := hWF
  have hig0 : find_ignore_rows api (([], []) : SplitPath) = .ok ([] : List Nat) := rfl
  rw [hig0] at hign
  injection hign with hig
  subst hig
  have htarget := get_target_set_char api hpanc hnda
  have hcount : ∀ a, popuCntFrom api.popu_list [] a api.variant_list 0
      = api.popu_list.count a := by
    intro a
    rw [popuCntFrom_nil_ign, ← hlen, range_map_getD]
  refine ⟨_, _, hsplit, ?_, ?_, ?_⟩
  · rw [htarget, addCounts_map]
    refine List.map_congr_left (fun a _ => ?_)
    rw [rowCnt_true_add_false api.popu_list [] fvi a api.variant_list 0, hcount a]
  · rw [htarget]
    exact map_fst_map api.ancestry_list _
  · rw [htarget, sumCounts_map, sum_count_eq_length api.ancestry_list hnda api.popu_list hpanc,
      hlen]

/-- C4 witness: the concrete scenario of spec §8 with candidate `V1`. -/
theorem C4_witness :
    ∃ w wo,
      split_subset apiW (([], []) : SplitPath) (some "V1") = .ok (w, wo) ∧
      get_target_set apiW = addCounts w wo ∧
      (get_target_set apiW).map (·.1) = apiW.ancestry_list ∧
      sumCounts (get_target_set apiW) = apiW.variant_list.length :=
  C4_target_set_eq_split_sum apiW (by decide) "V1" (by decide)

/-- C5 counterexample: in the one-row state `apiC5` the split path
`(["a"], [0])` excludes the only row, and `split_subset` with the non-empty
candidate `"zz"` — absent from `variant_name_list` — returns the zero
dictionaries instead of failing with `UnknownVariant`, because the source
looks the candidate up only inside the per-row loop. -/
theorem C5_counterexample :
    ("zz" ∉ apiC5.variant_name_list) ∧
    split_subset apiC5 (["a"], [0]) (some "zz") = .ok ([("P", 0)], [("P", 0)]) :=
  ⟨by decide, rfl⟩

/-- C5 (amended): in a well-formed state, a split path (with equal-length
component lists) referencing a variant absent from `variant_name_list`
makes `find_ignore_rows` — and hence `split_subset` (for any candidate) and
`find_next_variant_counts` — fail with `UnknownVariant`; a non-empty
candidate variant absent from `variant_name_list` makes `split_subset`
fail with `UnknownVariant` provided at least one eligible row exists. -/
theorem C5_amended_unknown_variant_errors (api : API) (hWF : api.WF) :
    (∀ (sp : SplitPath) (v : String), sp.1.length = sp.2.length → v ∈ sp.1 →
      v ∉ api.variant_name_list →
        find_ignore_rows api sp = .error "UnknownVariant" ∧
        (∀ sv, split_subset api sp sv = .error "UnknownVariant") ∧
        find_next_variant_counts api sp = .error "UnknownVariant") ∧
    (∀ (sp : SplitPath) (ign : List Nat) (X : String),
      find_ignore_rows api sp = .ok ign → X ≠ "" → X ∉ api.variant_name_list →
      (∃ k, k < api.variant_list.length ∧ k ∉ ign) →
      split_subset api sp (some X) = .error "UnknownVariant") := by
  obtain ⟨hrows, hlen, hpanc, hndn, hnda, hne⟩ := hWF
  constructor
  · intro sp v hsplen hv hvn
    obtain ⟨d, hd⟩ := exists_zip_pair sp.1 sp.2 hsplen v hv
    have herr := findIgnoreGo_err_unknown api (sp.1.zip sp.2) hrows v d hd hvn []
    refine ⟨herr, fun sv => ?_, ?_⟩
    · simp [split_subset, find_ignore_rows, herr]
    · simp [find_next_variant_counts, find_ignore_rows, herr]
  · intro sp ign X hok hXne hXn hex
    have hpop : ∀ k, k < api.variant_list.length → (0 + k) ∉ ign →
        (api.popu_list.get? (0 + k)).isSome := by
      intro k hk _
      rw [List.get?_eq_getElem?, List.getElem?_eq_getElem (by omega)]
      rfl
    have hex2 : ∃ k, k < api.variant_list.length ∧ (0 + k) ∉ ign := by
      obtain ⟨k, h1, h2⟩ := hex
      exact ⟨k, h1, by simpa using h2⟩
    have herr := splitRows_err_unknown api ign X hXne hXn api.variant_list 0
      (fromKeys api.ancestry_list) (fromKeys api.ancestry_list) hex2 hpop
    simp [split_subset, hok, herr]

/-- C5 witness: in the concrete §8 scenario, a path mentioning the unknown
variant `zz` errors, and so does an unknown non-empty candidate when
eligible rows exist. -/
theorem C5_amended_witness :
    find_ignore_rows apiW (["V1", "zz"], [1, 1]) = .error "UnknownVariant" ∧
    split_subset apiW ([], []) (some "zz") = .error "UnknownVariant" := by
  have h := C5_amended_unknown_variant_errors apiW (by decide)
  refine ⟨(h.1 (["V1", "zz"], [1, 1]) "zz" (by decide) (by decide) (by decide)).1, ?_⟩
  exact h.2 ([], []) [] "zz" rfl (by decide) (by decide) ⟨0, by decide, by decide⟩

/-- C6: in the genotype matrix built by `create_variant_dict`, the bit list
recorded for an individual `s` consists of exactly one classified bit per
call of `s`, in record order, where a call is recorded as 0 exactly when
its GT string is `0/0`, `0|0` or `.` (reference or unknown/missing), and 1
otherwise. -/
theorem C6_variant_dict_classification (variants : List Variant) (s : String) :
    (alookup s (create_variant_dict variants).2
      = if sampleBits s variants = [] then none else some (sampleBits s variants)) ∧
    (∀ gt, classifyGT gt = 0 ↔ (gt = "0/0" ∨ gt = "0|0" ∨ gt = ".")) := by
  constructor
  · have hne := ne_nil_buildDict variants [] (by simp)
    have hchar : lookValL s (variants.foldl (fun d v => processCalls v.samples d) [])
        = sampleBits s variants := by
      have := buildDict_char s variants []
      simpa [lookValL, alookup] using this
    have hcv : (create_variant_dict variants).2
        = variants.foldl (fun d v => processCalls v.samples d) [] := rfl
    rw [hcv, alookup_ne_nil_eq _ hne s, hchar]
  · intro gt
    by_cases h : gt ∈ (["0/0", "0|0", "."] : List String)
    · have h2 : gt = "0/0" ∨ gt = "0|0" ∨ gt = "." := by simpa using h
      simp [classifyGT, h, h2]
    · have h2 : ¬ (gt = "0/0" ∨ gt = "0|0" ∨ gt = ".") := by simpa using h
      simp [classifyGT, h, h2]

/-- C7: for every well-formed state and valid split path, `split_subset`
with no candidate variant returns two dictionaries whose key sequence is
exactly the ancestry universe and whose values are all zero. -/
theorem C7_no_candidate_all_zero (api : API) (hWF : api.WF) (sp : SplitPath)
    (hsp : ∀ v ∈ sp.1, v ∈ api.variant_name_list) :
    split_subset api sp none = .ok (fromKeys api.ancestry_list, fromKeys api.ancestry_list) ∧
    (fromKeys api.ancestry_list).map (·.1) = api.ancestry_list ∧
    (∀ kv ∈ fromKeys api.ancestry_list, kv.2 = 0) := by
  obtain ⟨hrows, hlen, hpanc, _, _, _⟩ := hWF
  obtain ⟨ign, hign⟩ := find_ignore_rows_ok api sp hsp hrows
  have hpop : ∀ k, k < api.variant_list.length → (0 + k) ∉ ign →
      (api.popu_list.get? (0 + k)).isSome := by
    intro k hk _
    rw [List.get?_eq_getElem?, List.getElem?_eq_getElem (by omega)]
    rfl
  refine ⟨?_, ?_, ?_⟩
  · simp only [split_subset, hign]
    exact splitRows_falsy api ign none rfl api.variant_list 0 _ _ hpop
  · simpa [fromKeys] using map_fst_map api.ancestry_list (fun _ => 0)
  · intro kv hkv
    simp only [fromKeys, List.mem_map] at hkv
    obtain ⟨a, _, h⟩ := hkv
    rw [← h]

/-- C7 witness: the concrete §8 scenario with path `(V1, with)`. -/
theorem C7_witness :
    split_subset apiW (["V1"], [1]) none
        = .ok (fromKeys apiW.ancestry_list, fromKeys apiW.ancestry_list) ∧
    (fromKeys apiW.ancestry_list).map (·.1) = apiW.ancestry_list ∧
    (∀ kv ∈ fromKeys apiW.ancestry_list, kv.2 = 0) :=
  C7_no_candidate_all_zero apiW (by decide) (["V1"], [1]) (by decide)

/-- C8: for every well-formed state, `count_variants` succeeds and returns
a dictionary whose keys are exactly the variant names carried by at least
one individual (zero-count variants are omitted), and whose value at the
name of column `j` is the number of individuals whose row has a 1 in
column `j`, over the whole matrix and ignoring any split path. -/
theorem C8_count_variants_carriers (api : API) (hWF : api.WF) :
    ∃ d, count_variants api = .ok d ∧
      (∀ n, n ∈ d.map (·.1) ↔
        ∃ j, j < api.variant_name_list.length ∧ api.variant_name_list.get? j = some n ∧
          0 < colCount api j) ∧
      (∀ j n, api.variant_name_list.get? j = some n → 0 < colCount api j →
        alookup n d = some (colCount api j)) ∧
      (∀ j n, api.variant_name_list.get? j = some n → colCount api j = 0 →
        alookup n d = none) := by
  obtain ⟨hrows, hlen, hpanc, hndn, hnda, hne⟩ := hWF
  obtain ⟨d, hd, hpos, hlook⟩ := count_variants_char api hrows
  have hcol : ∀ j n, api.variant_name_list.get? j = some n →
      colTotal api.variant_name_list api.variant_list n = colCount api j := by
    intro j n hj
    unfold colTotal
    have hmap : api.variant_list.map (fun r => rowColCnt api.variant_name_list n r 0)
        = api.variant_list.map (fun r => if r.getD j 0 = 1 then 1 else 0) := by
      refine List.map_congr_left (fun r hr => ?_)
      rw [rowColCnt_nodup api.variant_name_list hndn j n hj r 0 (by simp [hrows r hr])]
      by_cases hb : r.getD j 0 = 1
      · have hjlt : j < r.length := by
          by_contra hge
          rw [List.getD_eq_default r 0 (by omega)] at hb
          cases hb
        rw [if_pos ⟨Nat.zero_le j, by simpa using hjlt, by simpa using hb⟩, if_pos hb]
      · rw [if_neg ?_, if_neg hb]
        intro hc
        exact hb (by simpa using hc.2.2)
    rw [hmap, sum_map_ite_count]
    rfl
  refine ⟨d, hd, ?_, ?_, ?_⟩
  · intro n
    rw [mem_keys_iff_alookup, alookup_pos_eq d hpos n, hlook n]
    constructor
    · intro hsome
      by_cases hpos2 : 0 < colTotal api.variant_name_list api.variant_list n
      · have hnmem : n ∈ api.variant_name_list := by
          by_contra hnm
          rw [colTotal_zero_not_mem api.variant_name_list api.variant_list
            (fun r hr => le_of_eq (hrows r hr)) n hnm] at hpos2
          exact Nat.lt_irrefl 0 hpos2
        obtain ⟨j, hj⟩ := List.mem_iff_get?.1 hnmem
        have hjlt : j < api.variant_name_list.length := by
          by_contra hge
          rw [List.get?_eq_getElem?, List.getElem?_eq_none (by omega)] at hj
          cases hj
        exact ⟨j, hjlt, hj, (hcol j n hj) ▸ hpos2⟩
      · rw [if_neg hpos2] at hsome
        simp at hsome
    · intro ⟨j, hjlt, hj, hcpos⟩
      have := (hcol j n hj) ▸ hcpos
      rw [if_pos this]
      simp
  · intro j n hj hcpos
    rw [alookup_pos_eq d hpos n, hlook n, hcol j n hj, if_pos hcpos]
  · intro j n hj hc0
    rw [alookup_pos_eq d hpos n, hlook n, hcol j n hj, hc0]
    simp

/-- C8 witness: the concrete §8 scenario, where both variants have two
carriers. -/
theorem C8_witness :
    ∃ d, count_variants apiW = .ok d ∧
      (∀ n, n ∈ d.map (·.1) ↔
        ∃ j, j < apiW.variant_name_list.length ∧ apiW.variant_name_list.get? j = some n ∧
          0 < colCount apiW j) ∧
      (∀ j n, apiW.variant_name_list.get? j = some n → 0 < colCount apiW j →
        alookup n d = some (colCount apiW j)) ∧
      (∀ j n, apiW.variant_name_list.get? j = some n → colCount apiW j = 0 →
        alookup n d = none) :=
  C8_count_variants_carriers apiW (by decide)

/-- C9 counterexample: when the mapping file assigns individual `id1` first
population `A` and then population `B`, `popu_list` holds `A` but the final
`ancestry_dict` (and hence `ancestry_list`) only holds `B`, and the
per-population increment of `split_subset` hits a missing key
(`KeyError`). -/
theorem C9_counterexample :
    read_user_mappings vdC linesC = .ok mC ∧
    "A" ∈ mC.popu_list ∧ "A" ∉ mC.ancestry_list ∧
    split_subset (mkAPI mC ["v1"]) (([], []) : SplitPath) (some "v1") = .error "KeyError" :=
  ⟨rfl, by decide, by decide, rfl⟩

/-- C9 (amended): for states built by `read_user_mappings` from mapping
lines whose individual ids are pairwise distinct, and a catalogue matching
the genotype dictionary row lengths, `find_ignore_rows` returns a
duplicate-free list of valid row indices on any valid split path, every
label of `popu_list` is a key of the zero-initialized mappings built from
`ancestry_list`, and the per-population increments of `split_subset` and
`find_next_variant_counts` never access a missing key (both calls
succeed). -/
theorem C9_amended_filter_safety (vd : List (String × List Nat)) (lines : List (List String))
    (m : Mappings) (names : List String)
    (hok : read_user_mappings vd lines = .ok m)
    (hids : (lines.filterMap (fun l => l.get? 1)).Nodup)
    (hvd : ∀ kv ∈ vd, kv.2.length = names.length)
    (sp : SplitPath) (hsp : ∀ v ∈ sp.1, v ∈ names)
    (X : String) (hX : X ∈ names) (hXne : X ≠ "") :
    ∃ ign, find_ignore_rows (mkAPI m names) sp = .ok ign ∧ ign.Nodup ∧
      (∀ j ∈ ign, j < (mkAPI m names).variant_list.length) ∧
      (∀ p ∈ (mkAPI m names).popu_list, p ∈ (mkAPI m names).ancestry_list) ∧
      (∃ w wo, split_subset (mkAPI m names) sp (some X) = .ok (w, wo)) ∧
      (∃ L, find_next_variant_counts (mkAPI m names) sp = .ok L) := by
  obtain ⟨hpanc, hnda, hplen, hrowsvd⟩ := read_user_mappings_char vd lines m hok hids
  have hrows : ∀ r ∈ (mkAPI m names).variant_list,
      r.length = (mkAPI m names).variant_name_list.length := by
    intro r hr
    obtain ⟨k, hk⟩ := hrowsvd r hr
    exact hvd (k, r) (alookup_mem vd k r hk)
  obtain ⟨ign, hign⟩ := find_ignore_rows_ok (mkAPI m names) sp hsp hrows
  have hnb := findIgnoreGo_nodup_bound (mkAPI m names) (sp.1.zip sp.2) [] ign hign
    (by simp) (by simp)
  have hpop := popu_get_of_WF (mkAPI m names) hplen hpanc ign
  obtain ⟨fvi, hfvi⟩ := pyIndexNat_isSome names X hX
  have hXlt := pyIndexNat_lt names X fvi hfvi
  have hlenr : ∀ r ∈ (mkAPI m names).variant_list, fvi < r.length :=
    fun r hr => (hrows r hr) ▸ hXlt
  have hsplit := splitRows_char (mkAPI m names) ign X hXne fvi hfvi hnda
      (mkAPI m names).variant_list 0 (fun _ => 0) (fun _ => 0) hpop hlenr
  have hfnv := fnvGo_char (mkAPI m names) ign hnda (mkAPI m names).variant_list 0
      (names.map fun _ => fun _ => 0) hpop (fun r hr => by simp [hrows r hr, mkAPI])
  have hsplit2 : split_subset (mkAPI m names) sp (some X)
      = .ok ((mkAPI m names).ancestry_list.map fun a =>
               (a, 0 + rowCnt (mkAPI m names).popu_list ign fvi true a
                      (mkAPI m names).variant_list 0),
             (mkAPI m names).ancestry_list.map fun a =>
               (a, 0 + rowCnt (mkAPI m names).popu_list ign fvi false a
                      (mkAPI m names).variant_list 0)) := by
    simp only [split_subset, hign]
    simpa [fromKeys] using hsplit
  have hfnv2 : find_next_variant_counts (mkAPI m names) sp
      = .ok ((fnvSpec (mkAPI m names).popu_list ign (mkAPI m names).variant_list 0
          (names.map fun _ => fun _ => 0)).map
            (fun f => (mkAPI m names).ancestry_list.map fun a => (a, f a))) := by
    simp only [find_next_variant_counts, hign]
    have hds : (mkAPI m names).variant_name_list.map
        (fun _ => fromKeys (mkAPI m names).ancestry_list)
        = (names.map fun _ => fun _ : String => (0 : Nat)).map
            (fun f => (mkAPI m names).ancestry_list.map fun a => (a, f a)) := by
      simp [mkAPI, fromKeys, List.map_map]
    rw [hds]
    exact hfnv
  exact ⟨ign, hign, hnb.1, hnb.2, hpanc, ⟨_, _, hsplit2⟩, ⟨_, hfnv2⟩⟩

/-- C9 witness: a single mapping line, one individual carrying the single
variant `v`. -/
theorem C9_amended_witness :
    ∃ ign, find_ignore_rows (mkAPI mW2 ["v"]) ([], []) = .ok ign ∧ ign.Nodup ∧
      (∀ j ∈ ign, j < (mkAPI mW2 ["v"]).variant_list.length) ∧
      (∀ p ∈ (mkAPI mW2 ["v"]).popu_list, p ∈ (mkAPI mW2 ["v"]).ancestry_list) ∧
      (∃ w wo, split_subset (mkAPI mW2 ["v"]) ([], []) (some "v") = .ok (w, wo)) ∧
      (∃ L, find_next_variant_counts (mkAPI mW2 ["v"]) ([], []) = .ok L) :=
  C9_amended_filter_safety vdW2 linesW2 mW2 ["v"] rfl (by decide) (by decide) ([], [])
    (by decide) "v" (by decide) (by decide)

/-- C10: for every well-formed state and valid split path, calling
`split_subset` with the empty string as candidate behaves exactly like
calling it with no candidate — the empty string is falsy in Python — and
in particular it returns the two all-zero mappings rather than failing
with `UnknownVariant`, even though the empty string is absent from
`variant_name_list`. -/
theorem C10_empty_candidate_like_none (api : API) (hWF : api.WF) (sp : SplitPath)
    (hsp : ∀ v ∈ sp.1, v ∈ api.variant_name_list) :
    split_subset api sp (some "") = split_subset api sp none ∧
    split_subset api sp (some "")
      = .ok (fromKeys api.ancestry_list, fromKeys api.ancestry_list) := by
  obtain ⟨hrows, hlen, hpanc, _, _, _⟩ := hWF
  obtain ⟨ign, hign⟩ := find_ignore_rows_ok api sp hsp hrows
  have hpop : ∀ k, k < api.variant_list.length → (0 + k) ∉ ign →
      (api.popu_list.get? (0 + k)).isSome := by
    intro k hk _
    rw [List.get?_eq_getElem?, List.getElem?_eq_getElem (by omega)]
    rfl
  have h1 : split_subset api sp (some "") = split_subset api sp none := by
    simp only [split_subset, hign]
    exact splitRows_empty_none api ign api.variant_list 0 _ _
  refine ⟨h1, ?_⟩
  rw [h1]
  simp only [split_subset, hign]
  exact splitRows_falsy api ign none rfl api.variant_list 0 _ _ hpop

/-- C10 witness: the concrete §8 scenario with path `(V1, with)`. -/
theorem C10_witness :
    split_subset apiW (["V1"], [1]) (some "") = split_subset apiW (["V1"], [1]) none ∧
    split_subset apiW (["V1"], [1]) (some "")
      = .ok (fromKeys apiW.ancestry_list, fromKeys apiW.ancestry_list) :=
  C10_empty_candidate_like_none apiW (by decide) (["V1"], [1]) (by decide)

end ID3
